import Mathlib

/-
  Verification development for the migrator-db repository.

  The Go sources are shallowly embedded as executable Lean definitions:
  * the artifact loader (migrate/loader.go, function Load),
  * the state ledger (migrate/state.go: ensure, applied, last),
  * the migration runner (Up, Down, DownN),
  * the Postgres advisory-lock coordinator (PostgresLocker.Lock).

  Go strings are modelled by Lean String values, but every string scan is
  re-implemented structurally over the underlying character list so that all
  definitions reduce inside the kernel (concrete instances can be settled by
  decide or rfl).  Go int is modelled as unbounded Int; the only place this
  matters is strconv.Atoi overflow clamping, which no claim touches.
-/

namespace Migrator

/-! ## Character-list string helpers (kernel-reducible) -/

/-- Splitting a character list at every occurrence of one character.
Mirrors strings.Split with a one-character separator (used with the
underscore in loader.go). -/
def splitOnChar (c : Char) : List Char → List (List Char)
  | [] => [[]]
  | a :: rest =>
    let r := splitOnChar c rest
    if a = c then [] :: r
    else
      match r with
      | [] => [[a]]
      | h :: t => (a :: h) :: t

/-- Substring containment test, mirroring strings.Contains. -/
def hasSub (pat : List Char) : List Char → Bool
  | [] => pat.isEmpty
  | a :: rest => pat.isPrefixOf (a :: rest) || hasSub pat rest

/-- strings.TrimSuffix: removes one trailing occurrence of the suffix. -/
def trimSuffix (l suf : List Char) : List Char :=
  if suf.isSuffixOf l then l.take (l.length - suf.length) else l

/-- strings.HasSuffix. -/
def hasSuffix (l suf : List Char) : Bool := suf.isSuffixOf l

/-- Joining character lists with the underscore, mirroring
strings.Join(parts, "_"). -/
def joinUnderscore : List (List Char) → List Char
  | [] => []
  | [x] => x
  | x :: y :: t => x ++ '_' :: joinUnderscore (y :: t)

/-- Decimal digit run to a natural number. -/
def digitsVal (acc : Nat) : List Char → Nat
  | [] => acc
  | c :: rest => digitsVal (acc * 10 + (c.toNat - 48)) rest

/-- Whether every character is a decimal digit; false on the empty list. -/
def allDigits : List Char → Bool
  | [] => false
  | [c] => c.isDigit
  | c :: rest => c.isDigit && allDigits rest

/-- strconv.Atoi: optional sign followed by digits, the whole token; any
syntax failure yields 0 because loader.go discards the error
(`version, _ := strconv.Atoi(parts[0])`).  Overflow clamping of the Go
int is not modelled (Version is an unbounded Int here). -/
def goAtoi (s : List Char) : Int :=
  match s with
  | '-' :: rest => if allDigits rest then -(digitsVal 0 rest : Int) else 0
  | '+' :: rest => if allDigits rest then (digitsVal 0 rest : Int) else 0
  | _ => if allDigits s then (digitsVal 0 s : Int) else 0

/-! ## Artifact loader (migrate/loader.go) -/

/-- A migration, as in the Go struct: version, name and the two script
halves (empty string when the half is absent, as in Go zero values). -/
structure Migration where
  Version : Int
  Name : String
  UpSQL : String
  DownSQL : String
deriving DecidableEq, Repr

/-- One directory entry as seen by Load: its file name, whether
os.ReadFile succeeds on it, and its content when readable. -/
structure DirFile where
  fname : String
  readable : Bool
  content : String
deriving DecidableEq, Repr

/-- The version token: leading part of the name before the first
underscore, run through Atoi (0 when unparseable). -/
def versionOf (name : String) : Int :=
  goAtoi ((splitOnChar '_' name.data).headD [])

/-- The migration name computed at entry creation: parts after the first
underscore joined back, with the apply suffix trimmed first and then the
revert suffix, exactly as loader.go does. -/
def nameOf (name : String) : String :=
  let rest := (splitOnChar '_' name.data).tail
  if rest.isEmpty then ""
  else
    ⟨trimSuffix (trimSuffix (joinUnderscore rest) ".up.sql".data) ".down.sql".data⟩

/-- strings.Contains(name, ".up."). -/
def isUpName (name : String) : Bool := hasSub ".up.".data name.data

/-- strings.Contains(name, ".down."). -/
def isDownName (name : String) : Bool := hasSub ".down.".data name.data

/-- strings.HasSuffix(name, ".sql"). -/
def isSqlName (name : String) : Bool := hasSuffix name.data ".sql".data

/-- Map entry under construction: the name (fixed at creation) and the
two script halves; none models a field never assigned. -/
structure Entry where
  ename : String
  up : Option String
  down : Option String
deriving DecidableEq, Repr

/-- The two assignments at the bottom of the Load loop: a file containing
".up." sets the apply half, else one containing ".down." sets the revert
half, else neither. -/
def assign (e : Entry) (f : DirFile) : Entry :=
  if isUpName f.fname then { e with up := some f.content }
  else if isDownName f.fname then { e with down := some f.content }
  else e

/-- One iteration of the Load loop: skip non-SQL names, skip unreadable
files (logged in Go), then create or update the map entry for the parsed
version.  The map is an association list keyed by version; a fresh key is
appended, an existing key is updated in place. -/
def step (acc : List (Int × Entry)) (f : DirFile) : List (Int × Entry) :=
  if ¬ isSqlName f.fname then acc
  else if ¬ f.readable then acc
  else
    let v := versionOf f.fname
    if acc.any (fun p => p.1 == v) then
      acc.map (fun p => if p.1 == v then (p.1, assign p.2 f) else p)
    else
      acc ++ [(v, assign ⟨nameOf f.fname, none, none⟩ f)]

/-- The accumulation phase of Load over the directory listing (os.ReadDir
returns entries in name order; the model takes the listing as given). -/
def buildMap (fs : List DirFile) : List (Int × Entry) := fs.foldl step []

/-- Converting a finished map entry to a Migration (Go zero value ""
for a half never assigned). -/
def migrationOfEntry (p : Int × Entry) : Migration :=
  ⟨p.1, p.2.ename, p.2.up.getD "", p.2.down.getD ""⟩

/-- Ordering used by the final sort.Slice call (ascending Version). -/
def migLE (a b : Migration) : Prop := a.Version ≤ b.Version

instance : DecidableRel migLE := fun a b => Int.decLe a.Version b.Version

instance : IsTotal Migration migLE := ⟨fun a b => Int.le_total a.Version b.Version⟩

instance : IsTrans Migration migLE := ⟨fun _ _ _ h h2 => le_trans h h2⟩

/-- The final sort.  Go uses sort.Slice with a strict Version comparison;
since the map keys are distinct there is exactly one sorted arrangement,
and an insertion sort by the non-strict order produces it. -/
def sortMigrations (l : List Migration) : List Migration := List.insertionSort migLE l

/-- Load: an unreadable directory surfaces the ReadDir error as is;
otherwise the accumulated entries are emitted sorted ascending by
version. -/
def Load (dir : Except String (List DirFile)) : Except String (List Migration) :=
  match dir with
  | .error e => .error e
  | .ok fs => .ok (sortMigrations ((buildMap fs).map migrationOfEntry))

/-! ## Database state and transaction model

The external engine is modelled explicitly: the durable state is the
control table (present or not, plus its rows) and the set of user schema
objects.  A script is executed statement by statement on a working copy;
the runner commits the copy or rolls it back, which is how the engine
realises BEGIN/COMMIT/ROLLBACK. -/

/-- Durable database state: whether the schema_migrations control table
exists, its rows (one version per applied migration; the primary key
keeps them distinct), and the user schema objects. -/
structure DBState where
  hasLedger : Bool
  ledger : List Int
  objs : List String
deriving DecidableEq, Repr

/-- Semantics of a single SQL statement, supplied as a parameter: a
statement transforms the schema objects or fails.  Claims are proved for
every such semantics. -/
abbrev StmtSem := String → List String → Option (List String)

/-- Whitespace test used when the engine discards blank statement slots. -/
def isWS (c : Char) : Bool := c = ' ' || c = '\n' || c = '\t' || c = '\r'

/-- Engine model: a script text is a semicolon-separated statement list;
whitespace-only slots are discarded. -/
def splitStatements (sql : String) : List String :=
  ((splitOnChar ';' sql.data).filter (fun st => ¬ st.all isWS)).map (fun l => ⟨l⟩)

/-- Running a whole script inside a transaction working copy: statements
run in order, the first failure aborts the script. -/
def runScript (sem : StmtSem) (sql : String) (objs : List String) : Option (List String) :=
  (splitStatements sql).foldlM (fun acc st => sem st acc) objs

/-- migrate/state.go ensure: CREATE TABLE IF NOT EXISTS schema_migrations. -/
def ensure (st : DBState) : DBState := { st with hasLedger := true }

/-- migrate/state.go applied: SELECT version ... ORDER BY version.  The
query fails (none) when the control table does not exist. -/
def applied (st : DBState) : Option (List Int) :=
  if st.hasLedger then some (List.insertionSort (· ≤ ·) st.ledger) else none

/-- migrate/state.go last: SELECT version ... ORDER BY version DESC
LIMIT 1; fails when the table is missing or empty. -/
def last (st : DBState) : Option Int := (applied st).bind List.getLast?

/-- Errors returned by the runner, one constructor per distinct Go error
site (payloads kept where the Go message interpolates them). -/
inductive RunErr where
  | lockUnavailable
  | ioFailure (msg : String)
  | noMigrationToRollback
  | noDownMigrationFound
  | loadFailed (msg : String)
  | appliedQueryFailed
  | nothingToRevert
  | insufficientApplied
  | invalidSteps
  | migrationFileNotFound (v : Int)
  | noDownScript (v : Int)
  | scriptFailed (v : Int)
  | ledgerInsertFailed (v : Int)
deriving DecidableEq, Repr

/-- One Up transaction: run the apply script, then INSERT the ledger row
(the primary key rejects a duplicate), then COMMIT; any failure rolls
the transaction back, leaving the incoming state untouched. -/
def upApply (sem : StmtSem) (st : DBState) (m : Migration) : DBState × Option RunErr :=
  match runScript sem m.UpSQL st.objs with
  | none => (st, some (.scriptFailed m.Version))
  | some objs2 =>
    if m.Version ∈ st.ledger then (st, some (.ledgerInsertFailed m.Version))
    else ({ st with objs := objs2, ledger := st.ledger ++ [m.Version] }, none)

/-- The Up loop over the loaded migrations: already-applied versions are
skipped, dry-run only prints, otherwise each pending migration runs in
its own transaction and the first failure stops the loop. -/
def upLoop (sem : StmtSem) (dryRun : Bool) (done : List Int) :
    DBState → List Migration → DBState × Option RunErr
  | st, [] => (st, none)
  | st, m :: rest =>
    if m.Version ∈ done then upLoop sem dryRun done st rest
    else if dryRun then upLoop sem dryRun done st rest
    else
      match upApply sem st m with
      | (st2, none) => upLoop sem dryRun done st2 rest
      | (st2, some e) => (st2, some e)

/-- Up: lock unless dry-run, ensure the control table, load the artifact
directory (error surfaced as is), read the applied set, then run the
loop.  lockFree says whether no rival currently holds the coordination
lock. -/
def Up (sem : StmtSem) (dir : Except String (List DirFile)) (lockFree dryRun : Bool)
    (st : DBState) : DBState × Option RunErr :=
  if ¬ dryRun ∧ ¬ lockFree then (st, some .lockUnavailable)
  else
    let st1 := ensure st
    match Load dir with
    | .error e => (st1, some (.ioFailure e))
    | .ok migs =>
      match applied st1 with
      | none => (st1, some .appliedQueryFailed)
      | some vs => upLoop sem dryRun vs st1 migs

/-- Down: lock unless dry-run; a directory read failure or an empty or
missing ledger both yield the "no migration to rollback" error; a target
without a loaded migration or with an empty revert half yields "no down
migration found"; dry-run stops before the transaction; otherwise one
transaction runs the revert script and DELETEs the ledger row. -/
def Down (sem : StmtSem) (dir : Except String (List DirFile)) (lockFree dryRun : Bool)
    (st : DBState) : DBState × Option RunErr :=
  if ¬ dryRun ∧ ¬ lockFree then (st, some .lockUnavailable)
  else
    match Load dir with
    | .error _ => (st, some .noMigrationToRollback)
    | .ok migs =>
      match last st with
      | none => (st, some .noMigrationToRollback)
      | some v =>
        match migs.find? (fun m => m.Version == v) with
        | none => (st, some .noDownMigrationFound)
        | some target =>
          if target.DownSQL = "" then (st, some .noDownMigrationFound)
          else if dryRun then (st, none)
          else
            match runScript sem target.DownSQL st.objs with
            | none => (st, some (.scriptFailed v))
            | some objs2 =>
              ({ st with objs := objs2,
                         ledger := st.ledger.filter (fun w => decide (w ≠ v)) }, none)

/-- The DownN loop over the selected versions, most recent first.  The
per-target checks (loaded migration present, revert half non-empty)
happen at the top of each iteration; dry-run skips the transaction;
otherwise each revert commits independently and the first failure stops
the loop, leaving earlier commits in place. -/
def downNLoop (sem : StmtSem) (dryRun : Bool) (migs : List Migration) :
    DBState → List Int → DBState × Option RunErr
  | st, [] => (st, none)
  | st, v :: rest =>
    match migs.find? (fun m => m.Version == v) with
    | none => (st, some (.migrationFileNotFound v))
    | some target =>
      if target.DownSQL = "" then (st, some (.noDownScript v))
      else if dryRun then downNLoop sem dryRun migs st rest
      else
        match runScript sem target.DownSQL st.objs with
        | none => (st, some (.scriptFailed v))
        | some objs2 =>
          downNLoop sem dryRun migs
            { st with objs := objs2,
                      ledger := st.ledger.filter (fun w => decide (w ≠ v)) } rest

/-- DownN: validate steps, lock unless dry-run, load the directory (the
error is wrapped, its message preserved), read the applied set, reject an
empty ledger and an over-large steps before any transaction, then revert
the last steps versions most-recent-first.  (Go builds a version-keyed
map for the lookups; Load output has distinct versions so find? agrees
with it.) -/
def DownN (sem : StmtSem) (dir : Except String (List DirFile)) (steps : Int)
    (lockFree dryRun : Bool) (st : DBState) : DBState × Option RunErr :=
  if steps < 1 then (st, some .invalidSteps)
  else if ¬ dryRun ∧ ¬ lockFree then (st, some .lockUnavailable)
  else
    match Load dir with
    | .error e => (st, some (.loadFailed e))
    | .ok migs =>
      match applied st with
      | none => (st, some .appliedQueryFailed)
      | some vs =>
        if vs.length = 0 then (st, some .nothingToRevert)
        else if (vs.length : Int) < steps then (st, some .insufficientApplied)
        else downNLoop sem dryRun migs st (vs.drop (vs.length - steps.toNat)).reverse

/-! ## Postgres advisory-lock coordinator (Locker source, PostgresLocker) -/

/-- The locker state: only the locked flag matters to the control flow. -/
structure PostgresLocker where
  locked : Bool
deriving DecidableEq, Repr

/-- Failures of PostgresLocker.Lock, one per Go error site. -/
inductive LockErr where
  | alreadyLocked
  | ctxFailed
  | lockUnavailable
deriving DecidableEq, Repr

/-- PostgresLocker.Lock: refuse a double lock, obtain a dedicated
connection and issue one pg_try_advisory_lock probe under the caller
context (an expired context fails the query; ctxRemaining is the time
left before the deadline).  The probe grants the lock exactly when no
rival session holds it; an unsuccessful probe returns the
another-migration-in-progress error immediately, with no retry. -/
def PostgresLocker.Lock (l : PostgresLocker) (rivalHolds : Bool) (ctxRemaining : Nat) :
    PostgresLocker × Option LockErr :=
  if l.locked then (l, some .alreadyLocked)
  else if ctxRemaining = 0 then (l, some .ctxFailed)
  else if rivalHolds then (l, some .lockUnavailable)
  else ({ locked := true }, none)

/-! ## Concrete artifacts reused by witnesses and counterexamples -/

/-- A statement semantics in which every statement succeeds and changes
nothing. -/
def semOk : StmtSem := fun _ objs => some objs

/-- A statement semantics that records each executed statement as a
schema object and fails on the statement BAD. -/
def semRec : StmtSem := fun s objs => if s = "BAD" then none else some (objs ++ [s])

/-- A directory with migrations 1 and 2, both halves present. -/
def dirAB : Except String (List DirFile) :=
  .ok [⟨"1_a.up.sql", true, "CREATE a"⟩, ⟨"1_a.down.sql", true, "DROP a"⟩,
       ⟨"2_b.up.sql", true, "CREATE b"⟩, ⟨"2_b.down.sql", true, "DROP b"⟩]

/-- A directory where migration 1 lacks its revert half. -/
def dirNoDown : Except String (List DirFile) :=
  .ok [⟨"1_a.up.sql", true, "CREATE a"⟩,
       ⟨"2_b.up.sql", true, "CREATE b"⟩, ⟨"2_b.down.sql", true, "DROP b"⟩]

/-- A directory whose migration 2 apply script fails on its third
statement, and whose migration 1 revert script fails. -/
def dirBad : Except String (List DirFile) :=
  .ok [⟨"1_a.up.sql", true, "A1"⟩, ⟨"1_a.down.sql", true, "BAD"⟩,
       ⟨"2_b.up.sql", true, "B1;B2;BAD"⟩, ⟨"2_b.down.sql", true, "D2"⟩]

/-! ## Specification-side views and further witness artifacts -/

/-- Whether Load processes a file: SQL-named and readable. -/
def procp (f : DirFile) : Bool := isSqlName f.fname && f.readable

/-- The processed files carrying a given version, in directory order. -/
def procFiles (fs : List DirFile) (v : Int) : List DirFile :=
  fs.filter (fun f => procp f && (versionOf f.fname == v))

/-- The content of the last processed apply-half file of a version. -/
def upHalf (fs : List DirFile) (v : Int) : Option String :=
  (((procFiles fs v).filter (fun f => isUpName f.fname)).map (fun f => f.content)).getLast?

/-- The content of the last processed revert-half file of a version
(a file containing ".up." is claimed by the apply half first). -/
def downHalf (fs : List DirFile) (v : Int) : Option String :=
  (((procFiles fs v).filter (fun f => !(isUpName f.fname) && isDownName f.fname)).map
    (fun f => f.content)).getLast?

/-- The entry the loader map holds for a version: name taken from the
first processed file of that version, script halves from the last
assignments. -/
def entrySpec (fs : List DirFile) (v : Int) : Option Entry :=
  ((procFiles fs v).head?).map (fun f0 => ⟨nameOf f0.fname, upHalf fs v, downHalf fs v⟩)

/-- Association-list lookup by version key. -/
def lookupV (v : Int) : List (Int × Entry) → Option Entry
  | [] => none
  | p :: t => if p.1 == v then some p.2 else lookupV v t

/-- Whether strconv.Atoi succeeds on the token: an optional sign
followed by a non-empty digit run covering the whole token. -/
def atoiParses (s : List Char) : Bool :=
  match s with
  | '-' :: rest => allDigits rest
  | '+' :: rest => allDigits rest
  | _ => allDigits s

/-- A small concrete directory exercising every clause of claim C9. -/
def c9fs : List DirFile :=
  [⟨"1_a.up.sql", true, "U1"⟩, ⟨"1_a.down.sql", true, "D1"⟩,
   ⟨"nope.md", true, "M"⟩, ⟨"xx.up.sql", true, "U0"⟩]

/-- The migrations Load returns on that directory. -/
def c9migs : List Migration := [⟨0, "", "U0", ""⟩, ⟨1, "a", "U1", "D1"⟩]

/-- The versions the Up loop still has to apply: loaded migrations whose
version is not recorded. -/
def pendVers (done : List Int) (l : List Migration) : List Int :=
  (l.filter (fun m => decide (m.Version ∉ done))).map (fun m => m.Version)

/-- A directory whose middle migration has a failing apply script. -/
def dirMid : Except String (List DirFile) :=
  .ok [⟨"1_a.up.sql", true, "A1"⟩, ⟨"2_b.up.sql", true, "BAD"⟩, ⟨"3_c.up.sql", true, "C1"⟩]

/-- The migrations Load returns on the dirAB directory. -/
def c4migs : List Migration :=
  [⟨1, "a", "CREATE a", "DROP a"⟩, ⟨2, "b", "CREATE b", "DROP b"⟩]

/-- The highest version among the ledger rows, written directly by
recursion over the rows so that it does not presuppose any ordering. -/
def maxVersion : List Int → Option Int
  | [] => none
  | v :: rest =>
    match maxVersion rest with
    | none => some v
    | some w => some (max v w)

/-- The behaviour claim C6 ascribes to a real-run Down, written from the
claim text: select the highest version recorded in the ledger (failing
with the no-migration-to-rollback error when none is recorded), require
a loaded migration with a non-empty revert half (else the
no-down-migration-found error), and run the revert script plus the
ledger row deletion inside one transaction. -/
def DownSpec (sem : StmtSem) (migs : List Migration) (st : DBState) :
    DBState × Option RunErr :=
  match (if st.hasLedger then maxVersion st.ledger else none) with
  | none => (st, some .noMigrationToRollback)
  | some v =>
    match migs.find? (fun m => m.Version == v) with
    | none => (st, some .noDownMigrationFound)
    | some target =>
      if target.DownSQL = "" then (st, some .noDownMigrationFound)
      else
        match runScript sem target.DownSQL st.objs with
        | none => (st, some (.scriptFailed v))
        | some objs2 =>
          ({ st with objs := objs2,
                     ledger := st.ledger.filter (fun w => decide (w ≠ v)) }, none)

/-! ## Dry-run behaviour of the loops -/

theorem upLoop_dry (sem : StmtSem) (done : List Int) :
    ∀ (l : List Migration) (st : DBState), upLoop sem true done st l = (st, none) := by
  intro l
  induction l with
  | nil => intro st; rfl
  | cons m rest ih =>
    intro st
    unfold upLoop
    split
    · exact ih st
    · simp [ih st]

theorem downNLoop_dry (sem : StmtSem) (migs : List Migration) :
    ∀ (l : List Int) (st : DBState), (downNLoop sem true migs st l).1 = st := by
  intro l
  induction l with
  | nil => intro st; rfl
  | cons v rest ih =>
    intro st
    unfold downNLoop
    split
    · rfl
    · split
      · rfl
      · simp [ih st]

/-- Dry-run Up in closed form: the single durable effect is ensure (the
control table creation); a directory failure is still surfaced. -/
theorem up_dry (sem : StmtSem) (dir : Except String (List DirFile)) (lf : Bool) (st : DBState) :
    Up sem dir lf true st
      = (ensure st,
         match Load dir with
         | .error e => some (.ioFailure e)
         | .ok _ => none) := by
  unfold Up
  cases hL : Load dir <;> simp [hL, applied, ensure, upLoop_dry]

/-- Dry-run Down leaves the whole database state untouched. -/
theorem down_dry (sem : StmtSem) (dir : Except String (List DirFile)) (lf : Bool) (st : DBState) :
    (Down sem dir lf true st).1 = st := by
  unfold Down
  cases hL : Load dir <;> simp [hL]
  split
  · rfl
  · split
    · rfl
    · split <;> rfl

/-- Dry-run Down does not consult the coordination lock. -/
theorem down_dry_lock_free (sem : StmtSem) (dir : Except String (List DirFile))
    (lf lf2 : Bool) (st : DBState) :
    Down sem dir lf true st = Down sem dir lf2 true st := by
  simp [Down]

/-- Dry-run DownN leaves the whole database state untouched. -/
theorem downN_dry (sem : StmtSem) (dir : Except String (List DirFile)) (steps : Int)
    (lf : Bool) (st : DBState) :
    (DownN sem dir steps lf true st).1 = st := by
  unfold DownN
  split
  · rfl
  · cases hL : Load dir <;> simp [hL]
    cases hA : applied st <;> simp
    split
    · rfl
    · split
      · rfl
      · exact downNLoop_dry sem _ _ st

/-- Dry-run DownN does not consult the coordination lock. -/
theorem downN_dry_lock_free (sem : StmtSem) (dir : Except String (List DirFile)) (steps : Int)
    (lf lf2 : Bool) (st : DBState) :
    DownN sem dir steps lf true st = DownN sem dir steps lf2 true st := by
  simp [DownN]

/-! ## Skipped files in the loader -/

theorem step_unreadable (acc : List (Int × Entry)) (f : DirFile)
    (h : f.readable = false) : step acc f = acc := by
  unfold step
  split
  · rfl
  · simp [h]

theorem buildMap_filter_readable :
    ∀ (fs : List DirFile) (acc : List (Int × Entry)),
      List.foldl step acc (fs.filter (fun f => f.readable)) = List.foldl step acc fs := by
  intro fs
  induction fs with
  | nil => intro acc; rfl
  | cons f rest ih =>
    intro acc
    by_cases h : f.readable = true
    · simp [List.filter_cons, h, ih]
    · have h0 : f.readable = false := by revert h; cases f.readable <;> simp
      simp [List.filter_cons, h0, ih, step_unreadable acc f h0]

/-! ## Claim C1 -/

/-- Claim C1 is false on the code: Up runs ensure unconditionally, so a
dry-run Up against a fresh database creates the schema_migrations
control table (a schema object) even while a rival holds the lock
(lockFree = false), although the claim says dry-run creates no schema
object including the control table itself. -/
theorem c1_counterexample :
    (Up semOk dirAB false true ⟨false, [], []⟩).1.hasLedger = true ∧
    (⟨false, [], []⟩ : DBState).hasLedger = false ∧
    (Up semOk dirAB false true ⟨false, [], []⟩).2 = none :=
  ⟨rfl, rfl, rfl⟩

/-- Claim C1 (amended): for every migration directory and database
state, dry-run Up, Down and DownN leave the applied-version set and the
user schema objects unchanged and behave identically whatever the lock
state held by another caller; Down and DownN leave the whole database
state untouched; the one deviation is that dry-run Up still creates the
(empty) control table when it is absent. -/
theorem c1_dry_run_frame (sem : StmtSem) (dir : Except String (List DirFile))
    (lf lf2 : Bool) (steps : Int) (st : DBState) :
    (Up sem dir lf true st).1.ledger = st.ledger ∧
    (Up sem dir lf true st).1.objs = st.objs ∧
    Up sem dir lf true st = Up sem dir lf2 true st ∧
    (Down sem dir lf true st).1 = st ∧
    Down sem dir lf true st = Down sem dir lf2 true st ∧
    (DownN sem dir steps lf true st).1 = st ∧
    DownN sem dir steps lf true st = DownN sem dir steps lf2 true st := by
  refine ⟨?_, ?_, ?_, down_dry sem dir lf st, down_dry_lock_free sem dir lf lf2 st,
    downN_dry sem dir steps lf st, downN_dry_lock_free sem dir steps lf lf2 st⟩
  · rw [up_dry]; rfl
  · rw [up_dry]; rfl
  · rw [up_dry, up_dry]

/-! ## Claim C7 -/

/-- Claim C7 is false on the code: with no lock held by this locker and
30 units of context deadline remaining, a single probe against a rival
holder makes PostgresLocker.Lock fail immediately with the
another-migration-in-progress error; there is no poll/timeout loop. -/
theorem c7_counterexample :
    PostgresLocker.Lock ⟨false⟩ true 30 = (⟨false⟩, some .lockUnavailable) ∧
    (30 : Nat) ≠ 0 :=
  ⟨rfl, by decide⟩

/-- Claim C7 (amended): the Postgres backend issues one non-blocking
pg_try_advisory_lock probe on a dedicated connection; while a rival
holds the lock the call fails at once with a lock-unavailable error even
though the deadline has not fired, and with no rival the lock is
acquired. -/
theorem c7_single_probe (l : PostgresLocker) (d : Nat)
    (hl : l.locked = false) (hd : d ≠ 0) :
    PostgresLocker.Lock l true d = (l, some .lockUnavailable) ∧
    PostgresLocker.Lock l false d = ({ locked := true }, none) := by
  constructor <;> simp [PostgresLocker.Lock, hl, hd]

/-- Witness for the amended claim C7 at a concrete locker and deadline. -/
theorem c7_single_probe_witness :
    PostgresLocker.Lock ⟨false⟩ true 5 = (⟨false⟩, some .lockUnavailable) ∧
    PostgresLocker.Lock ⟨false⟩ false 5 = (⟨true⟩, none) :=
  c7_single_probe ⟨false⟩ 5 rfl (by decide)

/-! ## Claim C8 -/

/-- Claim C8 is false on the code: with the migration directory
unreadable, Down does not surface the I/O error as is but replaces it
with the no-migration-to-rollback error, losing the cause. -/
theorem c8_counterexample :
    Down semOk (.error "permission denied") true false ⟨true, [1], []⟩
      = (⟨true, [1], []⟩, some .noMigrationToRollback) ∧
    (RunErr.noMigrationToRollback ≠ RunErr.ioFailure "permission denied") ∧
    (RunErr.noMigrationToRollback ≠ RunErr.loadFailed "permission denied") :=
  ⟨rfl, by decide, by decide⟩

/-- Claim C8 (amended): with an unreadable migration directory, Up (real
or dry run) surfaces the underlying I/O error as is; DownN (real or dry
run) wraps it in a load failure that preserves the message; Down (real
or dry run) masks it, reporting no-migration-to-rollback instead; and
individually unreadable files within a readable directory are skipped
without failing the load. -/
theorem c8_io_surfacing (sem : StmtSem) (e : String) (dr dr2 dr3 : Bool) (steps : Int)
    (st st2 st3 : DBState) (fs : List DirFile) (hsteps : 1 ≤ steps) :
    Up sem (.error e) true dr st = (ensure st, some (.ioFailure e)) ∧
    Down sem (.error e) true dr2 st2 = (st2, some .noMigrationToRollback) ∧
    DownN sem (.error e) steps true dr3 st3 = (st3, some (.loadFailed e)) ∧
    Load (.ok fs) = Load (.ok (fs.filter (fun f => f.readable))) := by
  refine ⟨?_, ?_, ?_, ?_⟩
  · simp [Up, Load]
  · simp [Down, Load]
  · have : ¬ steps < 1 := by omega
    simp [DownN, Load, this]
  · simp [Load, buildMap, buildMap_filter_readable]

/-- Witness for the amended claim C8 at concrete states and directory. -/
theorem c8_io_surfacing_witness :
    Up semOk (.error "EACCES") true false ⟨true, [1], []⟩
      = (⟨true, [1], []⟩, some (.ioFailure "EACCES")) ∧
    Down semOk (.error "EACCES") true true ⟨true, [1], []⟩
      = (⟨true, [1], []⟩, some .noMigrationToRollback) ∧
    DownN semOk (.error "EACCES") 1 true false ⟨true, [1], []⟩
      = (⟨true, [1], []⟩, some (.loadFailed "EACCES")) ∧
    Load (.ok [⟨"1_a.up.sql", true, "X"⟩, ⟨"2_b.up.sql", false, "Y"⟩])
      = Load (.ok ([⟨"1_a.up.sql", true, "X"⟩, ⟨"2_b.up.sql", false, "Y"⟩].filter
          (fun f => f.readable))) := by
  have h := c8_io_surfacing semOk "EACCES" false true false 1
    ⟨true, [1], []⟩ ⟨true, [1], []⟩ ⟨true, [1], []⟩
    [⟨"1_a.up.sql", true, "X"⟩, ⟨"2_b.up.sql", false, "Y"⟩] (by decide)
  exact ⟨h.1, h.2.1, h.2.2.1, h.2.2.2⟩

/-! ## Closed-form characterisation of the loader accumulation -/

theorem lookupV_append (v w : Int) (e : Entry) (acc : List (Int × Entry)) :
    lookupV v (acc ++ [(w, e)])
      = ((lookupV v acc).orElse (fun _ => if w == v then some e else none)) := by
  induction acc with
  | nil => cases hwv : (w == v) <;> simp [lookupV, hwv]
  | cons p t ih =>
    cases h : (p.1 == v) <;> simp [lookupV, h, ih]

theorem lookupV_update (v w : Int) (f : DirFile) (acc : List (Int × Entry)) :
    lookupV v (acc.map (fun p => if p.1 == w then (p.1, assign p.2 f) else p))
      = if w == v then (lookupV v acc).map (fun e => assign e f) else lookupV v acc := by
  induction acc with
  | nil => cases hwv : (w == v) <;> simp [lookupV, hwv]
  | cons p t ih =>
    obtain ⟨k, e⟩ := p
    by_cases hkw : k = w <;> by_cases hkv : k = v
    · subst hkw; subst hkv
      simp [lookupV]
    · subst hkw
      have hvk : (k == v) = false := by simp [hkv]
      simp only [hvk, Bool.false_eq_true, if_false] at ih
      simp [lookupV, hvk]
      simpa using ih
    · subst hkv
      have hkw' : (k == w) = false := by simp [hkw]
      have hwv : (w == k) = false := by simp [Ne.symm hkw]
      simp [lookupV, hkw', hwv]
    · have hkw' : (k == w) = false := by simp [hkw]
      have hkv' : (k == v) = false := by simp [hkv]
      simp [lookupV, hkw', hkv']
      simpa using ih

theorem any_eq_lookupV (w : Int) (acc : List (Int × Entry)) :
    acc.any (fun p => p.1 == w) = (lookupV w acc).isSome := by
  induction acc with
  | nil => rfl
  | cons p t ih =>
    cases h : (p.1 == w) <;> simp [lookupV, h, ih]

theorem orElse_none (x : Option Entry) : (x.orElse (fun _ => none)) = x := by
  cases x <;> rfl

theorem procFiles_append (fs : List DirFile) (f : DirFile) (v : Int) :
    procFiles (fs ++ [f]) v
      = procFiles fs v
        ++ (if (procp f && (versionOf f.fname == v)) = true then [f] else []) := by
  simp only [procFiles, List.filter_append]
  cases hc : (procp f && (versionOf f.fname == v)) <;> simp [List.filter, hc]

theorem upHalf_append_skip (fs : List DirFile) (f : DirFile) (v : Int)
    (hc : (procp f && (versionOf f.fname == v)) = false) :
    upHalf (fs ++ [f]) v = upHalf fs v := by
  simp [upHalf, procFiles_append fs f v, hc]

theorem downHalf_append_skip (fs : List DirFile) (f : DirFile) (v : Int)
    (hc : (procp f && (versionOf f.fname == v)) = false) :
    downHalf (fs ++ [f]) v = downHalf fs v := by
  simp [downHalf, procFiles_append fs f v, hc]

theorem entrySpec_append_skip (fs : List DirFile) (f : DirFile) (v : Int)
    (hc : (procp f && (versionOf f.fname == v)) = false) :
    entrySpec (fs ++ [f]) v = entrySpec fs v := by
  simp [entrySpec, procFiles_append fs f v, hc,
    upHalf_append_skip fs f v hc, downHalf_append_skip fs f v hc]

theorem upHalf_append_hit (fs : List DirFile) (f : DirFile) (v : Int)
    (hc : (procp f && (versionOf f.fname == v)) = true) :
    upHalf (fs ++ [f]) v
      = if isUpName f.fname then some f.content else upHalf fs v := by
  cases hu : isUpName f.fname <;>
    simp [upHalf, procFiles_append fs f v, hc, List.filter_append, List.filter, hu,
      List.getLast?_concat]

theorem downHalf_append_hit (fs : List DirFile) (f : DirFile) (v : Int)
    (hc : (procp f && (versionOf f.fname == v)) = true) :
    downHalf (fs ++ [f]) v
      = if (!(isUpName f.fname) && isDownName f.fname) = true
          then some f.content else downHalf fs v := by
  cases hu : isUpName f.fname <;> cases hd : isDownName f.fname <;>
    simp [downHalf, procFiles_append fs f v, hc, List.filter_append, List.filter, hu, hd,
      List.getLast?_concat]

theorem upHalf_empty (fs : List DirFile) (v : Int) (hpf : procFiles fs v = []) :
    upHalf fs v = none := by
  simp [upHalf, hpf]

theorem downHalf_empty (fs : List DirFile) (v : Int) (hpf : procFiles fs v = []) :
    downHalf fs v = none := by
  simp [downHalf, hpf]

/-- The loader map holds, for every version, exactly the entry described
by entrySpec: name from the first processed file of that version, script
halves from the last corresponding assignments. -/
theorem lookupV_buildMap (fs : List DirFile) :
    ∀ (v : Int), lookupV v (buildMap fs) = entrySpec fs v := by
  induction fs using List.reverseRecOn with
  | nil => intro v; simp [buildMap, lookupV, entrySpec, procFiles]
  | append_singleton fs f ih =>
    intro v
    have hbm : buildMap (fs ++ [f]) = step (buildMap fs) f := by
      simp [buildMap, List.foldl_append]
    rw [hbm]
    unfold step
    by_cases hs : isSqlName f.fname = true
    case neg =>
      have hs0 : isSqlName f.fname = false := by revert hs; cases isSqlName f.fname <;> simp
      have hc : (procp f && (versionOf f.fname == v)) = false := by simp [procp, hs0]
      rw [entrySpec_append_skip fs f v hc]
      simp [hs0, ih v]
    case pos =>
      by_cases hr : f.readable = true
      case neg =>
        have hr0 : f.readable = false := by revert hr; cases f.readable <;> simp
        have hc : (procp f && (versionOf f.fname == v)) = false := by simp [procp, hr0]
        rw [entrySpec_append_skip fs f v hc]
        simp [hs, hr0, ih v]
      case pos =>
        have hpv : procp f = true := by simp [procp, hs, hr]
        by_cases hwv : versionOf f.fname = v
        case neg =>
          have hc : (procp f && (versionOf f.fname == v)) = false := by simp [hwv]
          rw [entrySpec_append_skip fs f v hc]
          have hbv : (versionOf f.fname == v) = false := by simp [hwv]
          simp only [hs, hr, if_true, not_true_eq_false, if_false, Bool.not_true]
          by_cases ha : (buildMap fs).any (fun p => p.1 == versionOf f.fname) = true
          · simp only [ha, if_true]
            rw [lookupV_update v (versionOf f.fname) f (buildMap fs)]
            simp [hbv, ih v]
          · have ha0 : (buildMap fs).any (fun p => p.1 == versionOf f.fname) = false := by
              revert ha; cases (buildMap fs).any (fun p => p.1 == versionOf f.fname) <;> simp
            simp only [ha0, Bool.false_eq_true, if_false]
            rw [lookupV_append v (versionOf f.fname) _ (buildMap fs)]
            simp [hbv, orElse_none, ih v]
        case pos =>
          subst hwv
          have hc : (procp f && (versionOf f.fname == versionOf f.fname)) = true := by
            simp [hpv]
          cases hpf : procFiles fs (versionOf f.fname) with
          | nil =>
            have hes : entrySpec fs (versionOf f.fname) = none := by
              simp [entrySpec, hpf]
            have hlk : lookupV (versionOf f.fname) (buildMap fs) = none := by
              rw [ih (versionOf f.fname)]; exact hes
            have ha0 : (buildMap fs).any (fun p => p.1 == versionOf f.fname) = false := by
              rw [any_eq_lookupV, hlk]; rfl
            simp only [hs, hr, not_true_eq_false, if_false, ha0, Bool.false_eq_true]
            rw [lookupV_append _ (versionOf f.fname) _ (buildMap fs)]
            rw [hlk]
            simp only [entrySpec, procFiles_append fs f (versionOf f.fname), hc, if_true,
              hpf, List.nil_append, List.head?]
            rw [upHalf_append_hit fs f _ hc, downHalf_append_hit fs f _ hc]
            rw [upHalf_empty fs _ hpf, downHalf_empty fs _ hpf]
            cases hu : isUpName f.fname <;> cases hd : isDownName f.fname <;>
              simp [assign, hu, hd]
          | cons f0 t =>
            have hes : entrySpec fs (versionOf f.fname)
                = some ⟨nameOf f0.fname, upHalf fs (versionOf f.fname),
                        downHalf fs (versionOf f.fname)⟩ := by
              simp [entrySpec, hpf]
            have hlk : lookupV (versionOf f.fname) (buildMap fs)
                = some ⟨nameOf f0.fname, upHalf fs (versionOf f.fname),
                        downHalf fs (versionOf f.fname)⟩ := by
              rw [ih (versionOf f.fname)]; exact hes
            have ha1 : (buildMap fs).any (fun p => p.1 == versionOf f.fname) = true := by
              rw [any_eq_lookupV, hlk]; rfl
            simp only [hs, hr, not_true_eq_false, if_false, ha1, if_true]
            rw [lookupV_update _ (versionOf f.fname) f (buildMap fs)]
            rw [hlk]
            simp only [beq_self_eq_true, if_true, Option.map_some]
            simp only [entrySpec, procFiles_append fs f (versionOf f.fname), hc, if_true,
              hpf]
            rw [upHalf_append_hit fs f _ hc, downHalf_append_hit fs f _ hc]
            cases hu : isUpName f.fname <;> cases hd : isDownName f.fname <;>
              simp [assign, hu, hd, List.head?]

theorem keys_update_eq (w : Int) (f : DirFile) (acc : List (Int × Entry)) :
    (acc.map (fun p => if p.1 == w then (p.1, assign p.2 f) else p)).map Prod.fst
      = acc.map Prod.fst := by
  induction acc with
  | nil => rfl
  | cons p t ih =>
    simp only [List.map_cons, ih]
    cases h : (p.1 == w) <;> simp [h]

theorem key_not_mem_of_any_false (w : Int) (acc : List (Int × Entry))
    (h : acc.any (fun p => p.1 == w) = false) : w ∉ acc.map Prod.fst := by
  intro hmem
  obtain ⟨p, hp, hfst⟩ := List.mem_map.mp hmem
  have := List.any_eq_false.mp h p hp
  simp [hfst] at this

/-- The loader map never holds two entries with the same version key. -/
theorem buildMap_keys_nodup (fs : List DirFile) : ((buildMap fs).map Prod.fst).Nodup := by
  induction fs using List.reverseRecOn with
  | nil => simp [buildMap]
  | append_singleton fs f ih =>
    have hbm : buildMap (fs ++ [f]) = step (buildMap fs) f := by
      simp [buildMap, List.foldl_append]
    rw [hbm]
    unfold step
    by_cases hs : isSqlName f.fname = true
    case neg =>
      have hs0 : isSqlName f.fname = false := by revert hs; cases isSqlName f.fname <;> simp
      simpa [hs0] using ih
    case pos =>
      by_cases hr : f.readable = true
      case neg =>
        have hr0 : f.readable = false := by revert hr; cases f.readable <;> simp
        simpa [hs, hr0] using ih
      case pos =>
        by_cases ha : (buildMap fs).any (fun p => p.1 == versionOf f.fname) = true
        · simp only [hs, hr, not_true_eq_false, if_false, ha, if_true]
          rw [keys_update_eq]
          exact ih
        · have ha0 : (buildMap fs).any (fun p => p.1 == versionOf f.fname) = false := by
            revert ha; cases (buildMap fs).any (fun p => p.1 == versionOf f.fname) <;> simp
          have hnm := key_not_mem_of_any_false (versionOf f.fname) (buildMap fs) ha0
          simp only [hs, hr, not_true_eq_false, if_false, ha0, Bool.false_eq_true,
            List.map_append, List.map_cons, List.map_nil]
          refine List.Nodup.append ih (List.nodup_singleton _) ?_
          intro a ha1 ha2
          rw [List.mem_singleton] at ha2
          subst ha2
          exact hnm ha1

theorem lookupV_eq_none_iff (v : Int) (l : List (Int × Entry)) :
    lookupV v l = none ↔ v ∉ l.map Prod.fst := by
  induction l with
  | nil => simp [lookupV]
  | cons p t ih =>
    cases h : (p.1 == v)
    · have hne : p.1 ≠ v := by simpa using h
      simp [lookupV, h, ih, Ne.symm hne]
    · have heq : p.1 = v := by simpa using h
      simp [lookupV, h, ← heq]

theorem lookupV_of_mem_nodup (l : List (Int × Entry)) (p : Int × Entry)
    (hnd : (l.map Prod.fst).Nodup) (hp : p ∈ l) : lookupV p.1 l = some p.2 := by
  induction l with
  | nil => cases hp
  | cons q t ih =>
    rcases List.mem_cons.mp hp with hq | ht
    · subst hq
      simp [lookupV]
    · have hq1 : q.1 ≠ p.1 := by
        intro hh
        have : p.1 ∈ t.map Prod.fst := List.mem_map.mpr ⟨p, ht, rfl⟩
        rw [← hh] at this
        exact (List.nodup_cons.mp hnd).1 this
      have hb : (q.1 == p.1) = false := by simp [hq1]
      simp only [lookupV, hb, Bool.false_eq_true, if_false]
      exact ih (List.nodup_cons.mp hnd).2 ht

/-- The versions of the emitted migration list are the map keys, up to
the final sort. -/
theorem load_versions_perm (fs : List DirFile) (migs : List Migration)
    (h : Load (.ok fs) = .ok migs) :
    (migs.map (fun m => m.Version)).Perm ((buildMap fs).map Prod.fst) := by
  have hm : migs = sortMigrations ((buildMap fs).map migrationOfEntry) := by
    simpa [Load] using h.symm
  have hperm : migs.Perm ((buildMap fs).map migrationOfEntry) := by
    rw [hm]; exact List.perm_insertionSort migLE _
  have := hperm.map (fun m => m.Version)
  simpa [List.map_map, migrationOfEntry, Function.comp] using this

theorem load_ok_nodup (fs : List DirFile) (migs : List Migration)
    (h : Load (.ok fs) = .ok migs) : (migs.map (fun m => m.Version)).Nodup :=
  ((load_versions_perm fs migs h).nodup_iff).mpr (buildMap_keys_nodup fs)

theorem load_ok_strict_sorted (fs : List DirFile) (migs : List Migration)
    (h : Load (.ok fs) = .ok migs) :
    List.Pairwise (fun a b : Migration => a.Version < b.Version) migs := by
  have hm : migs = sortMigrations ((buildMap fs).map migrationOfEntry) := by
    simpa [Load] using h.symm
  have hle : List.Pairwise migLE migs := by
    rw [hm]; exact List.sorted_insertionSort migLE _
  have hnd : (migs.map (fun m => m.Version)).Nodup := load_ok_nodup fs migs h
  have hne : List.Pairwise (fun a b : Migration => a.Version ≠ b.Version) migs := by
    rw [List.Nodup, List.pairwise_map] at hnd
    exact hnd
  exact (hle.and hne).imp (fun hab => lt_of_le_of_ne hab.1 hab.2)

theorem load_version_mem (fs : List DirFile) (migs : List Migration)
    (h : Load (.ok fs) = .ok migs) (v : Int) :
    (∃ m ∈ migs, m.Version = v)
      ↔ ∃ f ∈ fs, (procp f && (versionOf f.fname == v)) = true := by
  have h1 : (∃ m ∈ migs, m.Version = v) ↔ v ∈ migs.map (fun m => m.Version) := by
    simp [List.mem_map, eq_comm]
  have h2 : v ∈ migs.map (fun m => m.Version) ↔ v ∈ (buildMap fs).map Prod.fst :=
    (load_versions_perm fs migs h).mem_iff
  have h3 : v ∈ (buildMap fs).map Prod.fst ↔ ¬ lookupV v (buildMap fs) = none := by
    rw [lookupV_eq_none_iff]
    tauto
  have h4 : ¬ lookupV v (buildMap fs) = none ↔ ¬ procFiles fs v = [] := by
    rw [lookupV_buildMap fs v]
    unfold entrySpec
    cases hpf : procFiles fs v <;> simp [hpf]
  have h5 : ¬ procFiles fs v = [] ↔ ∃ f ∈ fs, (procp f && (versionOf f.fname == v)) = true := by
    unfold procFiles
    rw [List.filter_eq_nil_iff]
    push_neg
    simp
  rw [h1, h2, h3, h4, h5]

theorem load_mem_halves (fs : List DirFile) (migs : List Migration) (m : Migration)
    (h : Load (.ok fs) = .ok migs) (hm : m ∈ migs) :
    m.UpSQL = (upHalf fs m.Version).getD ""
      ∧ m.DownSQL = (downHalf fs m.Version).getD ""
      ∧ ∃ f0, (procFiles fs m.Version).head? = some f0 ∧ m.Name = nameOf f0.fname := by
  have hmm : migs = sortMigrations ((buildMap fs).map migrationOfEntry) := by
    simpa [Load] using h.symm
  have hperm : migs.Perm ((buildMap fs).map migrationOfEntry) := by
    rw [hmm]; exact List.perm_insertionSort migLE _
  have hmem : m ∈ (buildMap fs).map migrationOfEntry := hperm.mem_iff.mp hm
  obtain ⟨p, hp, hpe⟩ := List.mem_map.mp hmem
  have hlk : lookupV p.1 (buildMap fs) = some p.2 :=
    lookupV_of_mem_nodup (buildMap fs) p (buildMap_keys_nodup fs) hp
  rw [lookupV_buildMap fs p.1] at hlk
  unfold entrySpec at hlk
  cases hpf : (procFiles fs p.1).head? with
  | none => rw [hpf] at hlk; cases hlk
  | some f0 =>
    rw [hpf] at hlk
    simp at hlk
    have hv : m.Version = p.1 := by rw [← hpe]; rfl
    have hup : m.UpSQL = p.2.up.getD "" := by rw [← hpe]; rfl
    have hdn : m.DownSQL = p.2.down.getD "" := by rw [← hpe]; rfl
    have hnm : m.Name = p.2.ename := by rw [← hpe]; rfl
    refine ⟨?_, ?_, f0, ?_, ?_⟩
    · rw [hup, ← hlk, hv]
    · rw [hdn, ← hlk, hv]
    · rw [hv]; exact hpf
    · rw [hnm, ← hlk]

theorem step_nonsql (acc : List (Int × Entry)) (f : DirFile)
    (h : isSqlName f.fname = false) : step acc f = acc := by
  unfold step
  simp [h]

theorem buildMap_filter_sql :
    ∀ (fs : List DirFile) (acc : List (Int × Entry)),
      List.foldl step acc (fs.filter (fun f => isSqlName f.fname)) = List.foldl step acc fs := by
  intro fs
  induction fs with
  | nil => intro acc; rfl
  | cons f rest ih =>
    intro acc
    by_cases h : isSqlName f.fname = true
    · simp [List.filter_cons, h, ih]
    · have h0 : isSqlName f.fname = false := by revert h; cases isSqlName f.fname <;> simp
      simp [List.filter_cons, h0, ih, step_nonsql acc f h0]

theorem goAtoi_unparseable (s : List Char) (h : atoiParses s = false) : goAtoi s = 0 := by
  unfold goAtoi
  unfold atoiParses at h
  split at h <;> simp [h]

/-! ## Claim C9 -/

/-- Claim C9: for every readable directory Load returns one Migration
per distinct version sorted strictly ascending by version (first
conjunct, which also forces distinctness), a version is present exactly
when some readable SQL file carries it (second), each returned entry
merges the apply and revert halves of the files sharing its version
(third), files lacking the SQL extension are ignored (fourth), and a
processed file whose version token fails to parse as an integer
contributes to version 0 (fifth). -/
theorem c9_load_postcondition (fs : List DirFile) (migs : List Migration)
    (hload : Load (.ok fs) = .ok migs) :
    List.Pairwise (fun a b : Migration => a.Version < b.Version) migs ∧
    (∀ v, (∃ m ∈ migs, m.Version = v)
        ↔ ∃ f ∈ fs, (procp f && (versionOf f.fname == v)) = true) ∧
    (∀ m ∈ migs, m.UpSQL = (upHalf fs m.Version).getD ""
        ∧ m.DownSQL = (downHalf fs m.Version).getD "") ∧
    Load (.ok (fs.filter (fun f => isSqlName f.fname))) = .ok migs ∧
    (∀ f ∈ fs, procp f = true →
        atoiParses ((splitOnChar '_' f.fname.data).headD []) = false →
        versionOf f.fname = 0 ∧ ∃ m ∈ migs, m.Version = 0) := by
  refine ⟨load_ok_strict_sorted fs migs hload, load_version_mem fs migs hload, ?_, ?_, ?_⟩
  · intro m hm
    have hh := load_mem_halves fs migs m hload hm
    exact ⟨hh.1, hh.2.1⟩
  · rw [← hload]
    simp [Load, buildMap, buildMap_filter_sql]
  · intro f hf hproc hpar
    have hv0 : versionOf f.fname = 0 := by
      unfold versionOf
      exact goAtoi_unparseable _ hpar
    refine ⟨hv0, ?_⟩
    rw [load_version_mem fs migs hload 0]
    exact ⟨f, hf, by simp [hproc, hv0]⟩

/-- Witness for claim C9 at a concrete directory. -/
theorem c9_load_postcondition_witness :
    Load (.ok c9fs) = .ok c9migs ∧
    List.Pairwise (fun a b : Migration => a.Version < b.Version) c9migs ∧
    ((∃ m ∈ c9migs, m.Version = 1)
        ↔ ∃ f ∈ c9fs, (procp f && (versionOf f.fname == 1)) = true) ∧
    (⟨1, "a", "U1", "D1"⟩ : Migration).UpSQL = (upHalf c9fs 1).getD "" ∧
    versionOf "xx.up.sql" = 0 ∧ (∃ m ∈ c9migs, m.Version = 0) := by
  have hload : Load (.ok c9fs) = .ok c9migs := by rfl
  have h := c9_load_postcondition c9fs c9migs hload
  refine ⟨hload, h.1, h.2.1 1, ?_, ?_⟩
  · exact (h.2.2.1 ⟨1, "a", "U1", "D1"⟩ (by decide)).1
  · have hu := h.2.2.2.2 ⟨"xx.up.sql", true, "U0"⟩ (by decide) (by rfl) (by rfl)
    exact ⟨hu.1, hu.2⟩

/-! ## Behaviour of the Up loop -/

theorem upApply_ok (sem : StmtSem) (st : DBState) (m : Migration) (st2 : DBState)
    (h : upApply sem st m = (st2, none)) :
    st2.ledger = st.ledger ++ [m.Version] ∧ st2.hasLedger = st.hasLedger
      ∧ m.Version ∉ st.ledger ∧ runScript sem m.UpSQL st.objs = some st2.objs := by
  unfold upApply at h
  cases hr : runScript sem m.UpSQL st.objs with
  | none => rw [hr] at h; simp at h
  | some o2 =>
    rw [hr] at h
    by_cases hmem : m.Version ∈ st.ledger
    · simp [hmem] at h
    · simp [hmem] at h
      rw [← h]
      exact ⟨rfl, rfl, hmem, rfl⟩

theorem upApply_fail (sem : StmtSem) (st : DBState) (m : Migration) (st2 : DBState)
    (e : RunErr) (h : upApply sem st m = (st2, some e)) :
    st2 = st ∧ ((e = .scriptFailed m.Version ∧ runScript sem m.UpSQL st.objs = none)
      ∨ (e = .ledgerInsertFailed m.Version ∧ m.Version ∈ st.ledger)) := by
  unfold upApply at h
  cases hr : runScript sem m.UpSQL st.objs with
  | none =>
    rw [hr] at h
    have h1 := congrArg Prod.fst h
    have h2 := congrArg Prod.snd h
    simp at h1 h2
    exact ⟨h1.symm, Or.inl ⟨h2.symm, rfl⟩⟩
  | some o2 =>
    rw [hr] at h
    by_cases hmem : m.Version ∈ st.ledger
    · simp only [hmem, if_true] at h
      have h1 := congrArg Prod.fst h
      have h2 := congrArg Prod.snd h
      simp at h1 h2
      exact ⟨h1.symm, Or.inr ⟨h2.symm, hmem⟩⟩
    · simp [hmem] at h

theorem upLoop_ok (sem : StmtSem) (done : List Int) :
    ∀ (l : List Migration) (st : DBState), (upLoop sem false done st l).2 = none →
      (upLoop sem false done st l).1.ledger = st.ledger ++ pendVers done l
        ∧ (upLoop sem false done st l).1.hasLedger = st.hasLedger := by
  intro l
  induction l with
  | nil => intro st _; simp [upLoop, pendVers]
  | cons m rest ih =>
    intro st h
    by_cases hd : m.Version ∈ done
    · have hstep : upLoop sem false done st (m :: rest) = upLoop sem false done st rest := by
        simp only [upLoop]; simp [hd]
      rw [hstep] at h ⊢
      have hp : pendVers done (m :: rest) = pendVers done rest := by
        simp [pendVers, List.filter_cons, hd]
      rw [hp]
      exact ih st h
    · cases happ : upApply sem st m with
      | mk st2 oe =>
        cases oe with
        | none =>
          have hstep : upLoop sem false done st (m :: rest) = upLoop sem false done st2 rest := by
            simp only [upLoop]; simp [hd, happ]
          rw [hstep] at h ⊢
          have hop := upApply_ok sem st m st2 happ
          have hih := ih st2 h
          have hp : pendVers done (m :: rest) = m.Version :: pendVers done rest := by
            simp [pendVers, List.filter_cons, hd]
          rw [hp, hih.1, hop.1]
          exact ⟨by simp, hih.2.trans hop.2.1⟩
        | some e =>
          have hstep : upLoop sem false done st (m :: rest) = (st2, some e) := by
            simp only [upLoop]; simp [hd, happ]
          rw [hstep] at h
          cases h

theorem upLoop_allDone (sem : StmtSem) (dr : Bool) (done : List Int) :
    ∀ (l : List Migration) (st : DBState), (∀ m ∈ l, m.Version ∈ done) →
      upLoop sem dr done st l = (st, none) := by
  intro l
  induction l with
  | nil => intro st _; rfl
  | cons m rest ih =>
    intro st hall
    have hd : m.Version ∈ done := hall m (by simp)
    have : upLoop sem dr done st (m :: rest) = upLoop sem dr done st rest := by
      simp only [upLoop]; simp [hd]
    rw [this]
    exact ih st (fun m' hm' => hall m' (by simp [hm']))

theorem upLoop_fail (sem : StmtSem) (done : List Int) :
    ∀ (l : List Migration) (st : DBState) (e : RunErr),
      (upLoop sem false done st l).2 = some e →
      ∃ pre m post, l = pre ++ m :: post ∧ m.Version ∉ done ∧
        upLoop sem false done st pre = ((upLoop sem false done st l).1, none) ∧
        upApply sem ((upLoop sem false done st l).1) m
          = ((upLoop sem false done st l).1, some e) := by
  intro l
  induction l with
  | nil => intro st e h; cases h
  | cons m rest ih =>
    intro st e h
    by_cases hd : m.Version ∈ done
    · have hstep : upLoop sem false done st (m :: rest) = upLoop sem false done st rest := by
        simp only [upLoop]; simp [hd]
      rw [hstep] at h ⊢
      obtain ⟨pre, m', post, hsplit, hm', hpre, happ⟩ := ih st e h
      refine ⟨m :: pre, m', post, by simp [hsplit], hm', ?_, happ⟩
      have : upLoop sem false done st (m :: pre) = upLoop sem false done st pre := by
        simp only [upLoop]; simp [hd]
      rw [this]
      exact hpre
    · cases happ : upApply sem st m with
      | mk st2 oe =>
        cases oe with
        | none =>
          have hstep : upLoop sem false done st (m :: rest) = upLoop sem false done st2 rest := by
            simp only [upLoop]; simp [hd, happ]
          rw [hstep] at h ⊢
          obtain ⟨pre, m', post, hsplit, hm', hpre, happ'⟩ := ih st2 e h
          refine ⟨m :: pre, m', post, by simp [hsplit], hm', ?_, happ'⟩
          have : upLoop sem false done st (m :: pre) = upLoop sem false done st2 pre := by
            simp only [upLoop]; simp [hd, happ]
          rw [this]
          exact hpre
        | some e' =>
          have hstep : upLoop sem false done st (m :: rest) = (st2, some e') := by
            simp only [upLoop]; simp [hd, happ]
          rw [hstep] at h ⊢
          have hee : e' = e := by simpa using h
          subst hee
          have hst : st2 = st := (upApply_fail sem st m st2 e' happ).1
          subst hst
          exact ⟨[], m, rest, rfl, hd, rfl, happ⟩

/-! ## Running Up, and small facts about the ledger views -/

theorem up_locked (sem : StmtSem) (dir : Except String (List DirFile)) (st : DBState) :
    Up sem dir false false st = (st, some .lockUnavailable) := rfl

theorem up_run (sem : StmtSem) (dir : Except String (List DirFile)) (st : DBState)
    (migs : List Migration) (hload : Load dir = .ok migs) :
    Up sem dir true false st
      = upLoop sem false (List.insertionSort (· ≤ ·) st.ledger) (ensure st) migs := by
  unfold Up
  simp [hload, applied, ensure]

theorem up_io (sem : StmtSem) (dir : Except String (List DirFile)) (st : DBState)
    (e : String) (h : Load dir = .error e) :
    Up sem dir true false st = (ensure st, some (.ioFailure e)) := by
  unfold Up
  simp [h]

theorem ensure_id (st : DBState) (h : st.hasLedger = true) : ensure st = st := by
  cases st with
  | mk a b c =>
    simp only [ensure]
    simp only at h
    rw [h]

theorem mem_sortInts (l : List Int) (v : Int) :
    v ∈ List.insertionSort (· ≤ ·) l ↔ v ∈ l :=
  (List.perm_insertionSort _ l).mem_iff

theorem getLast?_mem_self (l : List Int) (a : Int) (h : l.getLast? = some a) : a ∈ l := by
  have hm : a ∈ l.getLast? := by rw [h]; rfl
  obtain ⟨hne, heq⟩ := List.mem_getLast?_eq_getLast hm
  rw [heq]
  exact List.getLast_mem hne

theorem last_mem (st : DBState) (v : Int) (h : last st = some v) : v ∈ st.ledger := by
  unfold last applied at h
  cases hb : st.hasLedger with
  | false => rw [hb] at h; simp at h
  | true =>
    rw [hb] at h
    have : (List.insertionSort (· ≤ ·) st.ledger).getLast? = some v := by
      simpa using h
    exact (mem_sortInts st.ledger v).mp (getLast?_mem_self _ v this)

/-- Inverting a real-run Up that fails with a script failure: the
migrations up to the failing one were committed, the failing migration
is pending with its version not yet recorded, the returned state is the
pre-transaction state of the failing script (on which the script fails
from its first statement), and the failing version is absent from the
returned ledger. -/
theorem up_script_fail_inversion (sem : StmtSem) (dir : Except String (List DirFile))
    (lf : Bool) (st : DBState) (v : Int)
    (h : (Up sem dir lf false st).2 = some (.scriptFailed v)) :
    ∃ migs pre m post,
      Load dir = .ok migs ∧ migs = pre ++ m :: post ∧ m.Version = v ∧
      m.Version ∉ st.ledger ∧
      (Up sem dir lf false st).1.ledger
        = st.ledger ++ pendVers (List.insertionSort (· ≤ ·) st.ledger) pre ∧
      (Up sem dir lf false st).1.hasLedger = true ∧
      runScript sem m.UpSQL ((Up sem dir lf false st).1.objs) = none ∧
      v ∉ (Up sem dir lf false st).1.ledger := by
  cases lf with
  | false => rw [up_locked] at h; simp at h
  | true =>
    cases dir with
    | error e =>
      rw [up_io sem (.error e) st e rfl] at h
      simp at h
    | ok fs =>
      cases hdir : Load (.ok fs) with
      | error e => simp [Load] at hdir
      | ok migs =>
        have hrun := up_run sem (.ok fs) st migs hdir
        rw [hrun] at h ⊢
        obtain ⟨pre, m, post, hsplit, hm, hpre, happ⟩ :=
          upLoop_fail sem (List.insertionSort (· ≤ ·) st.ledger) migs (ensure st) _ h
        obtain ⟨-, hcase⟩ := upApply_fail sem _ m _ _ happ
        cases hcase with
        | inr hbad => exact absurd hbad.1 (by simp)
        | inl hgood =>
          have hmv : m.Version = v := by
            have := hgood.1
            injection this with hh
            exact hh.symm
          have hpre2 : (upLoop sem false (List.insertionSort (· ≤ ·) st.ledger)
              (ensure st) pre).2 = none := by rw [hpre]
          have hok := upLoop_ok sem (List.insertionSort (· ≤ ·) st.ledger) pre (ensure st) hpre2
          rw [hpre] at hok
          have hml : (upLoop sem false (List.insertionSort (· ≤ ·) st.ledger)
              (ensure st) migs).1.ledger
              = st.ledger ++ pendVers (List.insertionSort (· ≤ ·) st.ledger) pre := hok.1
          have hmst : m.Version ∉ st.ledger := fun hmem =>
            hm ((mem_sortInts st.ledger m.Version).mpr hmem)
          have hnd := load_ok_nodup fs migs hdir
          have hnd2 : (List.map (fun mm => mm.Version) (pre ++ m :: post)).Nodup :=
            hsplit ▸ hnd
          rw [List.map_append, List.map_cons] at hnd2
          have hdisj := List.disjoint_of_nodup_append hnd2
          have hnotpre : m.Version ∉ List.map (fun mm => mm.Version) pre := by
            intro hmem
            exact hdisj hmem (by simp)
          have hvnot : v ∉ (upLoop sem false (List.insertionSort (· ≤ ·) st.ledger)
              (ensure st) migs).1.ledger := by
            rw [hml]
            intro hmem
            rcases List.mem_append.mp hmem with hc | hc
            · exact hmst (hmv ▸ hc)
            · obtain ⟨m', hm', hv'⟩ := List.mem_map.mp hc
              have hm'pre : m' ∈ pre := List.mem_of_mem_filter hm'
              exact hnotpre (List.mem_map.mpr ⟨m', hm'pre, by rw [hv', hmv]⟩)
          exact ⟨migs, pre, m, post, rfl, hsplit, hmv, hmst, hml, hok.2, hgood.2, hvnot⟩

/-- Inverting a real-run Down that fails with a script failure: the
whole transaction was rolled back (state unchanged) and the failing
version is the most recent applied one, still recorded. -/
theorem down_script_fail (sem : StmtSem) (dir : Except String (List DirFile))
    (lf : Bool) (st : DBState) (w : Int)
    (h : (Down sem dir lf false st).2 = some (.scriptFailed w)) :
    (Down sem dir lf false st).1 = st ∧ w ∈ st.ledger := by
  cases lf with
  | false =>
    have hlk : Down sem dir false false st = (st, some .lockUnavailable) := rfl
    rw [hlk] at h
    simp at h
  | true =>
    unfold Down at h ⊢
    cases hL : Load dir with
    | error e => simp [hL] at h
    | ok migs =>
      simp only [hL] at h ⊢
      cases hlast : last st with
      | none => simp [hlast] at h
      | some u =>
        simp only [hlast] at h ⊢
        cases hfind : migs.find? (fun m => m.Version == u) with
        | none => simp [hfind] at h
        | some target =>
          simp only [hfind] at h ⊢
          by_cases hds : target.DownSQL = ""
          · simp [hds] at h
          · simp only [hds, if_false] at h ⊢
            cases hrs : runScript sem target.DownSQL st.objs with
            | none =>
              simp only [hrs] at h ⊢
              have huw : u = w := by simpa using h
              subst huw
              exact ⟨by simp, last_mem st u hlast⟩
            | some o2 => simp [hrs] at h

/-! ## Claim C2 -/

/-- Claim C2: when an apply script raises a database error mid
transaction during a real-run Up, the transaction is rolled back in
full: the returned state is the pre-transaction state of the failing
script (the script still fails on it from its first statement) and the
failing version has no ledger row; symmetrically, a failing revert
script during Down leaves the whole state unchanged with the target
ledger row still present. -/
theorem c2_script_fail_rollback (sem sem2 : StmtSem) (dir dir2 : Except String (List DirFile))
    (lf lf2 : Bool) (st st2 : DBState) (v w : Int)
    (hup : (Up sem dir lf false st).2 = some (.scriptFailed v))
    (hdn : (Down sem2 dir2 lf2 false st2).2 = some (.scriptFailed w)) :
    (v ∉ (Up sem dir lf false st).1.ledger ∧
      ∃ migs m, Load dir = .ok migs ∧ m ∈ migs ∧ m.Version = v ∧
        runScript sem m.UpSQL ((Up sem dir lf false st).1.objs) = none) ∧
    ((Down sem2 dir2 lf2 false st2).1 = st2 ∧ w ∈ st2.ledger) := by
  obtain ⟨migs, pre, m, post, hloadm, hsplit, hmv, -, -, -, hrs, hvnot⟩ :=
    up_script_fail_inversion sem dir lf st v hup
  refine ⟨⟨hvnot, migs, m, hloadm, ?_, hmv, hrs⟩,
    down_script_fail sem2 dir2 lf2 st2 w hdn⟩
  rw [hsplit]
  simp

/-- Witness for claim C2 at a concrete directory and semantics. -/
theorem c2_script_fail_rollback_witness :
    ((2 : Int) ∉ (Up semRec dirBad true false ⟨false, [], []⟩).1.ledger) ∧
    (Down semRec dirBad true false ⟨true, [1], ["A1"]⟩).1 = ⟨true, [1], ["A1"]⟩ ∧
    (1 : Int) ∈ (⟨true, [1], ["A1"]⟩ : DBState).ledger := by
  have h := c2_script_fail_rollback semRec semRec dirBad dirBad true true
    ⟨false, [], []⟩ ⟨true, [1], ["A1"]⟩ 2 1 (by rfl) (by rfl)
  exact ⟨h.1.1, h.2.1, h.2.2⟩

/-! ## Claim C3 -/

/-- Claim C3: after one successful real-run Up, a further Up against the
same directory with no new artifacts succeeds and changes nothing, and
any number of repetitions leaves the state (hence the applied-version
set) exactly as after the first call. -/
theorem c3_up_idempotent (sem : StmtSem) (dir : Except String (List DirFile))
    (lf : Bool) (st : DBState) (h : (Up sem dir lf false st).2 = none) :
    Up sem dir true false ((Up sem dir lf false st).1)
        = ((Up sem dir lf false st).1, none) ∧
    ∀ n, (fun s => (Up sem dir true false s).1)^[n] ((Up sem dir lf false st).1)
        = (Up sem dir lf false st).1 := by
  cases lf with
  | false => rw [up_locked] at h; simp at h
  | true =>
    cases dir with
    | error e =>
      rw [up_io sem (.error e) st e rfl] at h
      simp at h
    | ok fs =>
      cases hdir : Load (.ok fs) with
      | error e => simp [Load] at hdir
      | ok migs =>
        have hrun := up_run sem (.ok fs) st migs hdir
        rw [hrun] at h ⊢
        have hok := upLoop_ok sem (List.insertionSort (· ≤ ·) st.ledger) migs (ensure st) h
        have hstep : Up sem (.ok fs) true false
            ((upLoop sem false (List.insertionSort (· ≤ ·) st.ledger) (ensure st) migs).1)
            = ((upLoop sem false (List.insertionSort (· ≤ ·) st.ledger)
                (ensure st) migs).1, none) := by
          rw [up_run sem (.ok fs) _ migs hdir, ensure_id _ hok.2]
          apply upLoop_allDone
          intro m hm
          rw [mem_sortInts, hok.1]
          by_cases hd : m.Version ∈ List.insertionSort (· ≤ ·) st.ledger
          · exact List.mem_append_left _ ((mem_sortInts st.ledger m.Version).mp hd)
          · refine List.mem_append_right _ ?_
            unfold pendVers
            exact List.mem_map.mpr ⟨m, List.mem_filter.mpr ⟨hm, by simpa using hd⟩, rfl⟩
        exact ⟨hstep, fun n => Function.iterate_fixed (congrArg Prod.fst hstep) n⟩

/-- Witness for claim C3 at a concrete directory. -/
theorem c3_up_idempotent_witness :
    Up semOk dirAB true false ((Up semOk dirAB true false ⟨false, [], []⟩).1)
        = ((Up semOk dirAB true false ⟨false, [], []⟩).1, none) ∧
    (fun s => (Up semOk dirAB true false s).1)^[3]
        ((Up semOk dirAB true false ⟨false, [], []⟩).1)
      = (Up semOk dirAB true false ⟨false, [], []⟩).1 := by
  have h := c3_up_idempotent semOk dirAB true ⟨false, [], []⟩ (by rfl)
  exact ⟨h.1, h.2 3⟩

/-! ## Claim C10 -/

/-- Claim C10: Up commits each pending migration in its own transaction:
when applying one pending migration fails, the loaded list splits around
the failing migration, every earlier pending migration is already
recorded in the ledger (appended to the incoming rows), the failing
version is not recorded, and no pending migration after the failing one
has been attempted or recorded. -/
theorem c10_up_partial_progress (sem : StmtSem) (dir : Except String (List DirFile))
    (lf : Bool) (st : DBState) (v : Int)
    (h : (Up sem dir lf false st).2 = some (.scriptFailed v)) :
    ∃ migs pre m post,
      Load dir = .ok migs ∧ migs = pre ++ m :: post ∧ m.Version = v ∧
      (Up sem dir lf false st).1.ledger
        = st.ledger ++ pendVers (List.insertionSort (· ≤ ·) st.ledger) pre ∧
      v ∉ (Up sem dir lf false st).1.ledger ∧
      (∀ p ∈ post, p.Version ∉ st.ledger →
        p.Version ∉ (Up sem dir lf false st).1.ledger) := by
  obtain ⟨migs, pre, m, post, hload, hsplit, hmv, hmst, hml, -, -, hvnot⟩ :=
    up_script_fail_inversion sem dir lf st v h
  refine ⟨migs, pre, m, post, hload, hsplit, hmv, hml, hvnot, ?_⟩
  cases dir with
  | error e => rw [Load] at hload; cases hload
  | ok fs =>
    intro p hp hpst
    rw [hml]
    intro hmem
    rcases List.mem_append.mp hmem with hc | hc
    · exact hpst hc
    · have hnd := load_ok_nodup fs migs hload
      have hnd2 : (List.map (fun mm => mm.Version) (pre ++ m :: post)).Nodup :=
        hsplit ▸ hnd
      rw [List.map_append] at hnd2
      have hdisj := List.disjoint_of_nodup_append hnd2
      obtain ⟨m', hm', hv'⟩ := List.mem_map.mp hc
      have hm'pre : m' ∈ pre := List.mem_of_mem_filter hm'
      have : p.Version ∈ List.map (fun mm => mm.Version) pre :=
        List.mem_map.mpr ⟨m', hm'pre, hv'⟩
      exact hdisj this (by simp [List.mem_map]; exact Or.inr ⟨p, hp, rfl⟩)

/-- Witness for claim C10 at a concrete directory where the middle
migration fails. -/
theorem c10_up_partial_progress_witness :
    (Up semRec dirMid true false ⟨false, [], []⟩).2 = some (.scriptFailed 2) ∧
    ((2 : Int) ∉ (Up semRec dirMid true false ⟨false, [], []⟩).1.ledger) ∧
    (Up semRec dirMid true false ⟨false, [], []⟩).1.ledger = [1] := by
  have h := c10_up_partial_progress semRec dirMid true ⟨false, [], []⟩ 2 (by rfl)
  obtain ⟨-, -, -, -, -, -, -, -, hvnot, -⟩ := h
  exact ⟨rfl, hvnot, rfl⟩

/-! ## Behaviour of the DownN loop -/

theorem downNLoop_ok (sem : StmtSem) (migs : List Migration) :
    ∀ (l : List Int) (st : DBState), (downNLoop sem false migs st l).2 = none →
      (downNLoop sem false migs st l).1.ledger
          = st.ledger.filter (fun w => decide (w ∉ l)) ∧
      (downNLoop sem false migs st l).1.hasLedger = st.hasLedger ∧
      ∀ v ∈ l, ∃ m ∈ migs, m.Version = v ∧ m.DownSQL ≠ "" := by
  intro l
  induction l with
  | nil =>
    intro st _
    refine ⟨?_, rfl, by simp⟩
    simp [downNLoop]
  | cons v rest ih =>
    intro st h
    cases hf : migs.find? (fun m => m.Version == v) with
    | none =>
      have : downNLoop sem false migs st (v :: rest) = (st, some (.migrationFileNotFound v)) := by
        simp only [downNLoop]; simp [hf]
      rw [this] at h
      cases h
    | some target =>
      by_cases hds : target.DownSQL = ""
      · have : downNLoop sem false migs st (v :: rest) = (st, some (.noDownScript v)) := by
          simp only [downNLoop]; simp [hf, hds]
        rw [this] at h
        cases h
      · cases hrs : runScript sem target.DownSQL st.objs with
        | none =>
          have : downNLoop sem false migs st (v :: rest) = (st, some (.scriptFailed v)) := by
            simp only [downNLoop]; simp [hf, hds, hrs]
          rw [this] at h
          cases h
        | some o2 =>
          have hstep : downNLoop sem false migs st (v :: rest)
              = downNLoop sem false migs
                  { st with objs := o2,
                            ledger := st.ledger.filter (fun w => decide (w ≠ v)) } rest := by
            simp only [downNLoop]; simp [hf, hds, hrs]
          rw [hstep] at h ⊢
          obtain ⟨hl, hh, htg⟩ := ih _ h
          refine ⟨?_, hh, ?_⟩
          · rw [hl]
            simp only [List.filter_filter]
            apply List.filter_congr
            intro a _
            by_cases hav : a = v <;> by_cases har : a ∈ rest <;> simp [hav, har]
          · intro u hu
            rcases List.mem_cons.mp hu with hc | hc
            · subst hc
              refine ⟨target, List.mem_of_find?_eq_some hf, ?_, hds⟩
              have := List.find?_some hf
              simpa using this
            · exact htg u hc

theorem downNLoop_fail (sem : StmtSem) (migs : List Migration) :
    ∀ (l : List Int) (st : DBState) (e : RunErr),
      (downNLoop sem false migs st l).2 = some e →
      ∃ pre v post, l = pre ++ v :: post ∧
        downNLoop sem false migs st pre = ((downNLoop sem false migs st l).1, none) ∧
        ((migs.find? (fun m => m.Version == v) = none ∧ e = .migrationFileNotFound v) ∨
         (∃ target, migs.find? (fun m => m.Version == v) = some target ∧
            target.DownSQL = "" ∧ e = .noDownScript v) ∨
         (∃ target, migs.find? (fun m => m.Version == v) = some target ∧
            target.DownSQL ≠ ""
            ∧ runScript sem target.DownSQL
                ((downNLoop sem false migs st l).1).objs = none
            ∧ e = .scriptFailed v)) := by
  intro l
  induction l with
  | nil => intro st e h; cases h
  | cons v rest ih =>
    intro st e h
    cases hf : migs.find? (fun m => m.Version == v) with
    | none =>
      have hstep : downNLoop sem false migs st (v :: rest)
          = (st, some (.migrationFileNotFound v)) := by
        simp only [downNLoop]; simp [hf]
      rw [hstep] at h ⊢
      have he : e = .migrationFileNotFound v := by simpa using h.symm
      exact ⟨[], v, rest, rfl, rfl, Or.inl ⟨hf, he⟩⟩
    | some target =>
      by_cases hds : target.DownSQL = ""
      · have hstep : downNLoop sem false migs st (v :: rest)
            = (st, some (.noDownScript v)) := by
          simp only [downNLoop]; simp [hf, hds]
        rw [hstep] at h ⊢
        have he : e = .noDownScript v := by simpa using h.symm
        exact ⟨[], v, rest, rfl, rfl, Or.inr (Or.inl ⟨target, hf, hds, he⟩)⟩
      · cases hrs : runScript sem target.DownSQL st.objs with
        | none =>
          have hstep : downNLoop sem false migs st (v :: rest)
              = (st, some (.scriptFailed v)) := by
            simp only [downNLoop]; simp [hf, hds, hrs]
          rw [hstep] at h ⊢
          have he : e = .scriptFailed v := by simpa using h.symm
          exact ⟨[], v, rest, rfl, rfl, Or.inr (Or.inr ⟨target, hf, hds, hrs, he⟩)⟩
        | some o2 =>
          have hstep : downNLoop sem false migs st (v :: rest)
              = downNLoop sem false migs
                  { st with objs := o2,
                            ledger := st.ledger.filter (fun w => decide (w ≠ v)) } rest := by
            simp only [downNLoop]; simp [hf, hds, hrs]
          rw [hstep] at h ⊢
          obtain ⟨pre, u, post, hsplit, hpre, hkind⟩ := ih _ e h
          refine ⟨v :: pre, u, post, by simp [hsplit], ?_, hkind⟩
          have : downNLoop sem false migs st (v :: pre)
              = downNLoop sem false migs
                  { st with objs := o2,
                            ledger := st.ledger.filter (fun w => decide (w ≠ v)) } pre := by
            simp only [downNLoop]; simp [hf, hds, hrs]
          rw [this]
          exact hpre

theorem downNLoop_err_kinds (sem : StmtSem) (dr : Bool) (migs : List Migration) :
    ∀ (l : List Int) (st : DBState) (e : RunErr),
      (downNLoop sem dr migs st l).2 = some e →
      ∃ u, e = .migrationFileNotFound u ∨ e = .noDownScript u ∨ e = .scriptFailed u := by
  intro l
  induction l with
  | nil => intro st e h; cases h
  | cons v rest ih =>
    intro st e h
    cases hf : migs.find? (fun m => m.Version == v) with
    | none =>
      have hstep : downNLoop sem dr migs st (v :: rest)
          = (st, some (.migrationFileNotFound v)) := by
        simp only [downNLoop]; simp [hf]
      rw [hstep] at h
      exact ⟨v, Or.inl (by simpa using h.symm)⟩
    | some target =>
      by_cases hds : target.DownSQL = ""
      · have hstep : downNLoop sem dr migs st (v :: rest)
            = (st, some (.noDownScript v)) := by
          simp only [downNLoop]; simp [hf, hds]
        rw [hstep] at h
        exact ⟨v, Or.inr (Or.inl (by simpa using h.symm))⟩
      · cases dr with
        | true =>
          have hstep : downNLoop sem true migs st (v :: rest)
              = downNLoop sem true migs st rest := by
            simp only [downNLoop]; simp [hf, hds]
          rw [hstep] at h
          exact ih st e h
        | false =>
          cases hrs : runScript sem target.DownSQL st.objs with
          | none =>
            have hstep : downNLoop sem false migs st (v :: rest)
                = (st, some (.scriptFailed v)) := by
              simp only [downNLoop]; simp [hf, hds, hrs]
            rw [hstep] at h
            exact ⟨v, Or.inr (Or.inr (by simpa using h.symm))⟩
          | some o2 =>
            have hstep : downNLoop sem false migs st (v :: rest)
                = downNLoop sem false migs
                    { st with objs := o2,
                              ledger := st.ledger.filter (fun w => decide (w ≠ v)) } rest := by
              simp only [downNLoop]; simp [hf, hds, hrs]
            rw [hstep] at h
            exact ih _ e h

/-- Down leaves the database state untouched whenever it returns an
error (only the transaction-commit branch changes state). -/
theorem down_err_state (sem : StmtSem) (dir : Except String (List DirFile))
    (lf dr : Bool) (st : DBState) (e : RunErr)
    (h : (Down sem dir lf dr st).2 = some e) :
    (Down sem dir lf dr st).1 = st := by
  unfold Down at h ⊢
  by_cases hlk : (¬ dr ∧ ¬ lf)
  · simp [hlk]
  · simp only [if_neg hlk] at h ⊢
    cases hL : Load dir with
    | error e2 => simp [hL]
    | ok migs =>
      simp only [hL] at h ⊢
      cases hlast : last st with
      | none => simp
      | some u =>
        simp only [hlast] at h ⊢
        cases hfind : migs.find? (fun m => m.Version == u) with
        | none => simp
        | some target =>
          simp only [hfind] at h ⊢
          by_cases hds : target.DownSQL = ""
          · simp [hds]
          · simp only [hds, if_false] at h ⊢
            by_cases hdr : dr = true
            · simp [hdr]
            · have hdr0 : dr = false := by revert hdr; cases dr <;> simp
              simp only [hdr0, Bool.false_eq_true, if_false] at h ⊢
              cases hrs : runScript sem target.DownSQL st.objs with
              | none => simp [hrs]
              | some o2 => simp [hrs] at h

/-- DownN either stops in one of its pre-loop branches, leaving the
state untouched and reporting an error, or it reaches the revert loop
over the selected most-recent versions. -/
theorem downN_state_or_loop (sem : StmtSem) (dir : Except String (List DirFile))
    (steps : Int) (lf dr : Bool) (st : DBState) :
    ((DownN sem dir steps lf dr st).1 = st ∧ ∃ e, (DownN sem dir steps lf dr st).2 = some e)
    ∨ ∃ migs rev, Load dir = .ok migs ∧ st.hasLedger = true ∧
        rev = ((List.insertionSort (· ≤ ·) st.ledger).drop
                ((List.insertionSort (· ≤ ·) st.ledger).length - steps.toNat)).reverse ∧
        DownN sem dir steps lf dr st = downNLoop sem dr migs st rev := by
  by_cases hsteps : steps < 1
  · left
    have hres : DownN sem dir steps lf dr st = (st, some .invalidSteps) := by
      unfold DownN
      rw [if_pos hsteps]
    rw [hres]
    exact ⟨rfl, .invalidSteps, rfl⟩
  · by_cases hlk : (¬ dr = true ∧ ¬ lf = true)
    · left
      have hres : DownN sem dir steps lf dr st = (st, some .lockUnavailable) := by
        unfold DownN
        rw [if_neg hsteps, if_pos hlk]
      rw [hres]
      exact ⟨rfl, .lockUnavailable, rfl⟩
    · cases hdir : Load dir with
      | error e2 =>
        left
        have hres : DownN sem dir steps lf dr st = (st, some (.loadFailed e2)) := by
          unfold DownN
          rw [if_neg hsteps, if_neg hlk]
          simp only [hdir]
        rw [hres]
        exact ⟨rfl, .loadFailed e2, rfl⟩
      | ok migs =>
        cases hhl : st.hasLedger with
        | false =>
          left
          have hres : DownN sem dir steps lf dr st = (st, some .appliedQueryFailed) := by
            unfold DownN
            rw [if_neg hsteps, if_neg hlk]
            simp only [hdir, applied, hhl, Bool.false_eq_true, if_false]
          rw [hres]
          exact ⟨rfl, .appliedQueryFailed, rfl⟩
        | true =>
          by_cases hlen : (List.insertionSort (· ≤ ·) st.ledger).length = 0
          · left
            have hres : DownN sem dir steps lf dr st = (st, some .nothingToRevert) := by
              unfold DownN
              rw [if_neg hsteps, if_neg hlk]
              simp only [hdir, applied, hhl, if_true]
              rw [if_pos hlen]
            rw [hres]
            exact ⟨rfl, .nothingToRevert, rfl⟩
          · by_cases hcmp : ((List.insertionSort (· ≤ ·) st.ledger).length : Int) < steps
            · left
              have hres : DownN sem dir steps lf dr st
                  = (st, some .insufficientApplied) := by
                unfold DownN
                rw [if_neg hsteps, if_neg hlk]
                simp only [hdir, applied, hhl, if_true]
                rw [if_neg hlen, if_pos hcmp]
              rw [hres]
              exact ⟨rfl, .insufficientApplied, rfl⟩
            · right
              refine ⟨migs, _, rfl, rfl, rfl, ?_⟩
              unfold DownN
              rw [if_neg hsteps, if_neg hlk]
              simp only [hdir, applied, hhl, if_true]
              rw [if_neg hlen, if_neg hcmp]

/-! ## Claim C5 -/

/-- Claim C5 is false on the code: DownN(2) against applied versions 1
and 2, where migration 1 lacks its revert script, first commits the
revert of version 2 in its own transaction and only then fails with the
missing-revert-script error for version 1, so the call does open a
transaction and does change the ledger. -/
theorem c5_counterexample :
    DownN semOk dirNoDown 2 true false ⟨true, [1, 2], []⟩
      = (⟨true, [1], []⟩, some (.noDownScript 1)) ∧
    (⟨true, [1], []⟩ : DBState).ledger ≠ (⟨true, [1, 2], []⟩ : DBState).ledger :=
  ⟨rfl, by decide⟩

/-- Claim C5 (amended): Down detects both NothingToRevert and
MissingRevertScript before any transaction and leaves the state
unchanged; DownN detects NothingToRevert before any transaction and
leaves the state unchanged; a missing revert script or missing artifact
in DownN is detected before that target's own transaction — the target's
ledger row is untouched and the control table persists — but reverts of
more recent targets earlier in the same call have already been
committed. -/
theorem c5_pre_transaction_checks
    (sem sem2 sem3 : StmtSem) (dir dir2 dir3 : Except String (List DirFile))
    (lf lf2 lf3 dr dr2 : Bool) (steps steps2 : Int) :
    (∀ st : DBState, ((Down sem dir lf dr st).2 = some .noMigrationToRollback
        ∨ (Down sem dir lf dr st).2 = some .noDownMigrationFound)
      → (Down sem dir lf dr st).1 = st) ∧
    (∀ st : DBState, (DownN sem2 dir2 steps lf2 dr2 st).2 = some .nothingToRevert
      → (DownN sem2 dir2 steps lf2 dr2 st).1 = st) ∧
    (∀ (st : DBState) (u : Int), st.ledger.Nodup →
      ((DownN sem3 dir3 steps2 lf3 false st).2 = some (.noDownScript u)
        ∨ (DownN sem3 dir3 steps2 lf3 false st).2 = some (.migrationFileNotFound u))
      → ((u ∈ (DownN sem3 dir3 steps2 lf3 false st).1.ledger ↔ u ∈ st.ledger)
          ∧ (DownN sem3 dir3 steps2 lf3 false st).1.hasLedger = st.hasLedger)) := by
  refine ⟨?_, ?_, ?_⟩
  · intro st hor
    rcases hor with h | h
    · exact down_err_state sem dir lf dr st _ h
    · exact down_err_state sem dir lf dr st _ h
  · intro st h
    rcases downN_state_or_loop sem2 dir2 steps lf2 dr2 st with hc | hc
    · exact hc.1
    · obtain ⟨migs, rev, -, -, -, heq⟩ := hc
      rw [heq] at h
      obtain ⟨u, hu⟩ := downNLoop_err_kinds sem2 dr2 migs rev st _ h
      rcases hu with hu | hu | hu <;> simp at hu
  · intro st u hnd hor
    rcases downN_state_or_loop sem3 dir3 steps2 lf3 false st with hc | hc
    · rw [hc.1]
      exact ⟨Iff.rfl, rfl⟩
    · obtain ⟨migs, rev, -, -, hrev, heq⟩ := hc
      have hsortnd : (List.insertionSort (· ≤ ·) st.ledger).Nodup :=
        (List.perm_insertionSort (· ≤ ·) st.ledger).nodup_iff.mpr hnd
      have hrevnd : rev.Nodup := by
        rw [hrev]
        exact List.nodup_reverse.mpr (hsortnd.sublist (List.drop_sublist _ _))
      have hfail : ∃ e, (downNLoop sem3 false migs st rev).2 = some e := by
        rcases hor with h | h <;> exact ⟨_, by rw [← heq]; exact h⟩
      obtain ⟨e, he⟩ := hfail
      obtain ⟨pre, v, post, hsplit, hpre, hkind⟩ :=
        downNLoop_fail sem3 migs rev st e he
      have hpre2 : (downNLoop sem3 false migs st pre).2 = none := by rw [hpre]
      have hok := downNLoop_ok sem3 migs pre st hpre2
      rw [hpre] at hok
      -- the failing element is u itself
      have hvu : v = u := by
        rcases hor with h | h
        · rw [heq] at h
          rw [he] at h
          have he2 : e = .noDownScript u := by simpa using h
          subst he2
          rcases hkind with ⟨-, hk⟩ | ⟨t, -, -, hk⟩ | ⟨t, -, -, -, hk⟩ <;>
            first
              | (injection hk with hh; exact hh.symm)
              | (exact absurd hk (by simp))
        · rw [heq] at h
          rw [he] at h
          have he2 : e = .migrationFileNotFound u := by simpa using h
          subst he2
          rcases hkind with ⟨-, hk⟩ | ⟨t, -, -, hk⟩ | ⟨t, -, -, -, hk⟩ <;>
            first
              | (injection hk with hh; exact hh.symm)
              | (exact absurd hk (by simp))
      subst hvu
      have hvpre : v ∉ pre := by
        rw [hsplit] at hrevnd
        have hd := List.disjoint_of_nodup_append hrevnd
        intro hmem
        exact hd hmem (by simp)
      rw [heq]
      refine ⟨?_, hok.2.1⟩
      rw [hok.1]
      constructor
      · intro hmem
        exact (List.mem_filter.mp hmem).1
      · intro hmem
        exact List.mem_filter.mpr ⟨hmem, by simpa using hvpre⟩

/-- Witness for the amended claim C5 at concrete states. -/
theorem c5_pre_transaction_checks_witness :
    (Down semOk dirAB true false ⟨true, [], []⟩).1 = ⟨true, [], []⟩ ∧
    (DownN semOk dirAB 1 true false ⟨true, [], []⟩).1 = ⟨true, [], []⟩ ∧
    (((1 : Int) ∈ (DownN semOk dirNoDown 2 true false ⟨true, [1, 2], []⟩).1.ledger)
        ↔ (1 : Int) ∈ (⟨true, [1, 2], []⟩ : DBState).ledger) := by
  have h := c5_pre_transaction_checks semOk semOk semOk dirAB dirAB dirNoDown
    true true true false false 1 2
  refine ⟨h.1 ⟨true, [], []⟩ (Or.inl (by rfl)), h.2.1 ⟨true, [], []⟩ (by rfl), ?_⟩
  exact (h.2.2 ⟨true, [1, 2], []⟩ 1 (by decide) (Or.inl (by rfl))).1

theorem ensure_ledger (st : DBState) : (ensure st).ledger = st.ledger := rfl

theorem downN_ok_inversion (sem : StmtSem) (dir : Except String (List DirFile))
    (steps : Int) (lf : Bool) (st : DBState)
    (h : (DownN sem dir steps lf false st).2 = none) :
    ∃ migs rev, Load dir = .ok migs ∧ st.hasLedger = true ∧
      rev = ((List.insertionSort (· ≤ ·) st.ledger).drop
              ((List.insertionSort (· ≤ ·) st.ledger).length - steps.toNat)).reverse ∧
      (DownN sem dir steps lf false st).1.ledger
          = st.ledger.filter (fun w => decide (w ∉ rev)) ∧
      (DownN sem dir steps lf false st).1.hasLedger = st.hasLedger ∧
      (∀ v ∈ rev, ∃ m ∈ migs, m.Version = v ∧ m.DownSQL ≠ "") := by
  rcases downN_state_or_loop sem dir steps lf false st with hc | hc
  · obtain ⟨-, e, he⟩ := hc
    rw [he] at h
    cases h
  · obtain ⟨migs, rev, hload, hhl, hrev, heq⟩ := hc
    rw [heq] at h ⊢
    have hok := downNLoop_ok sem migs rev st h
    exact ⟨migs, rev, hload, hhl, hrev, hok.1, hok.2.1, hok.2.2⟩

/-! ## Claim C4 -/

/-- Claim C4 is false on the code: with migrations 1 and 2 loaded but
only 1 applied, a successful DownN(1) followed by Up does not restore
the original applied set: Up also applies the never-applied migration 2,
yielding the set containing 1 and 2 instead of the set containing 1. -/
theorem c4_counterexample :
    (DownN semOk dirAB 1 true false ⟨true, [1], []⟩).2 = none ∧
    (Up semOk dirAB true false ((DownN semOk dirAB 1 true false ⟨true, [1], []⟩).1)).2
      = none ∧
    (Up semOk dirAB true false
        ((DownN semOk dirAB 1 true false ⟨true, [1], []⟩).1)).1.ledger.toFinset
      ≠ (⟨true, [1], []⟩ : DBState).ledger.toFinset := by
  refine ⟨rfl, rfl, ?_⟩
  decide

/-- Claim C4 (amended): a successful DownN(steps) followed by a
successful Up against the same directory restores exactly the original
applied-version set, provided no revert script is missing (implied by
the DownN success) and every loaded migration was applied before the
DownN call. -/
theorem c4_round_trip (sem : StmtSem) (dir : Except String (List DirFile))
    (steps : Int) (lf : Bool) (st : DBState) (migs : List Migration)
    (hload : Load dir = .ok migs)
    (hsub : ∀ m ∈ migs, m.Version ∈ st.ledger)
    (h1 : (DownN sem dir steps lf false st).2 = none)
    (h2 : (Up sem dir true false ((DownN sem dir steps lf false st).1)).2 = none) :
    (Up sem dir true false
        ((DownN sem dir steps lf false st).1)).1.ledger.toFinset
      = st.ledger.toFinset := by
  obtain ⟨migs', rev, hload', hhl, hrev, hled, hhl2, htg⟩ :=
    downN_ok_inversion sem dir steps lf st h1
  have hmigs : migs' = migs := by
    rw [hload] at hload'
    injection hload' with hh
    exact hh.symm
  subst hmigs
  have hrun := up_run sem dir ((DownN sem dir steps lf false st).1) migs' hload
  rw [hrun] at h2 ⊢
  have hok := upLoop_ok sem
    (List.insertionSort (· ≤ ·) ((DownN sem dir steps lf false st).1).ledger)
    migs' (ensure ((DownN sem dir steps lf false st).1)) h2
  rw [hok.1, ensure_ledger]
  apply Finset.ext
  intro x
  simp only [List.mem_toFinset, List.mem_append]
  constructor
  · rintro (hx | hx)
    · rw [hled] at hx
      exact (List.mem_filter.mp hx).1
    · obtain ⟨m, hm, hv⟩ := List.mem_map.mp hx
      exact hv ▸ hsub m (List.mem_of_mem_filter hm)
  · intro hx
    by_cases hxr : x ∈ rev
    · right
      obtain ⟨m, hmm, hmv, -⟩ := htg x hxr
      refine List.mem_map.mpr ⟨m, List.mem_filter.mpr ⟨hmm, ?_⟩, hmv⟩
      have hnot : m.Version ∉ ((DownN sem dir steps lf false st).1).ledger := by
        rw [hled]
        intro hmem
        have := (List.mem_filter.mp hmem).2
        rw [hmv] at this
        simp [hxr] at this
      simpa [mem_sortInts] using hnot
    · left
      rw [hled]
      exact List.mem_filter.mpr ⟨hx, by simpa using hxr⟩

/-- Witness for the amended claim C4 at a concrete state where both
loaded migrations are applied. -/
theorem c4_round_trip_witness :
    (Up semOk dirAB true false
        ((DownN semOk dirAB 1 true false ⟨true, [1, 2], []⟩).1)).1.ledger.toFinset
      = (⟨true, [1, 2], []⟩ : DBState).ledger.toFinset :=
  c4_round_trip semOk dirAB 1 true ⟨true, [1, 2], []⟩ c4migs (by rfl)
    (by decide) (by rfl) (by rfl)

/-! ## Claim C6 -/

theorem maxVersion_mem : ∀ (l : List Int) (v : Int), maxVersion l = some v → v ∈ l := by
  intro l
  induction l with
  | nil => intro v h; cases h
  | cons a rest ih =>
    intro v h
    unfold maxVersion at h
    cases hm : maxVersion rest with
    | none =>
      rw [hm] at h
      have : a = v := by simpa using h
      simp [this]
    | some w =>
      rw [hm] at h
      have hv : v = max a w := by simpa using h.symm
      rcases le_total a w with hle | hle
      · rw [max_eq_right hle] at hv
        exact List.mem_cons.mpr (Or.inr (hv ▸ ih w hm))
      · rw [max_eq_left hle] at hv
        simp [hv]

theorem sorted_getLast_eq_maxVersion :
    ∀ (l : List Int), l.Sorted (· ≤ ·) → l.getLast? = maxVersion l := by
  intro l
  induction l with
  | nil => intro _; rfl
  | cons a rest ih =>
    intro hs
    cases rest with
    | nil => rfl
    | cons b t =>
      have hs2 : (b :: t).Sorted (· ≤ ·) := hs.of_cons
      have hIH := ih hs2
      rw [List.getLast?_cons_cons, hIH]
      cases hm : maxVersion (b :: t) with
      | none =>
        unfold maxVersion at hm
        cases hmt : maxVersion t <;> simp [hmt] at hm
      | some w =>
        have hw : w ∈ b :: t := maxVersion_mem (b :: t) w hm
        have haw : a ≤ w := (List.sorted_cons.mp hs).1 w hw
        have hsup : a ⊔ w = w := sup_eq_right.mpr haw
        unfold maxVersion
        rw [hm]
        simp [hsup]

theorem maxVersion_perm {l₁ l₂ : List Int} (hp : l₁.Perm l₂) :
    maxVersion l₁ = maxVersion l₂ := by
  induction hp with
  | nil => rfl
  | cons x h ih =>
    unfold maxVersion
    rw [ih]
  | swap x y l =>
    cases hm : maxVersion l with
    | none =>
      simp only [maxVersion, hm]
      rw [max_comm]
    | some w =>
      simp only [maxVersion, hm]
      rw [max_left_comm]
  | trans h₁ h₂ ih₁ ih₂ => exact ih₁.trans ih₂

theorem last_eq_maxVersion (st : DBState) :
    last st = (if st.hasLedger then maxVersion st.ledger else none) := by
  unfold last applied
  cases hb : st.hasLedger with
  | false => simp
  | true =>
    simp only [if_true]
    show (List.insertionSort (· ≤ ·) st.ledger).getLast? = maxVersion st.ledger
    rw [sorted_getLast_eq_maxVersion _ (List.sorted_insertionSort (· ≤ ·) st.ledger)]
    exact maxVersion_perm (List.perm_insertionSort (· ≤ ·) st.ledger)

/-- Claim C6: a real-run Down with the lock available behaves exactly as
the claim describes: it selects the highest recorded version, fails with
the no-migration-to-rollback error when the ledger is empty (or its
table absent), fails with the no-down-migration-found error when the
target migration is missing or its revert half empty, and otherwise runs
the revert script and deletes that ledger row in one transaction. -/
theorem c6_down_most_recent (sem : StmtSem) (dir : Except String (List DirFile))
    (migs : List Migration) (st : DBState) (hload : Load dir = .ok migs) :
    Down sem dir true false st = DownSpec sem migs st := by
  unfold Down DownSpec
  simp only [hload]
  rw [← last_eq_maxVersion st]
  simp only [not_false_eq_true, not_true_eq_false, false_and, and_false, if_false]
  cases hlast : last st with
  | none => rfl
  | some v =>
    cases hfind : migs.find? (fun m => m.Version == v) with
    | none => rfl
    | some target =>
      by_cases hds : target.DownSQL = ""
      · simp [hds]
      · simp only [hds, if_false]
        cases hrs : runScript sem target.DownSQL st.objs <;> rfl

/-- Witness for claim C6 at a concrete directory and state. -/
theorem c6_down_most_recent_witness :
    Down semOk dirAB true false ⟨true, [1, 2], []⟩
      = DownSpec semOk c4migs ⟨true, [1, 2], []⟩ :=
  c6_down_most_recent semOk dirAB c4migs ⟨true, [1, 2], []⟩ (by rfl)

end Migrator
